import Mathlib

/-!
# Schema dependency graph and table ordering (package `myModel`, `mysql.go`)

A shallow embedding of `mysql.go`: the table registry `Schema`, the dependency
predicate `MainTable.Depends`, and `Schema.getSortedTables`, which feeds the
registered tables to the topological sorter of `github.com/philopon/go-toposort`.

Conventions of the embedding.

* A `*MainTable` is an address into a heap of `MainTable` objects; `nil` is
  `none` where a pointer may be nil. Pointer comparison is address comparison.
* A Go `map[string]V` is an association list with one entry per key. The order
  in which `range` visits a map is not fixed by the language, so every `range`
  over `Schema.Tables` takes its visiting order from a `MapOrder` argument.
* A `panic` is an `Except.error`.
-/

namespace MyModel

/-! ## Go maps with string keys -/

/-- Lookup `m[k]` together with its presence flag. -/
def mapGet {V : Type} : List (String × V) → String → Option V
  | [], _ => none
  | (k1, v) :: rest, k => if k1 = k then some v else mapGet rest k

/-- Assignment `m[k] = v`: overwrite the entry of `k`, or add one. -/
def mapSet {V : Type} : List (String × V) → String → V → List (String × V)
  | [], k, v => [(k, v)]
  | (k1, v1) :: rest, k, v => if k1 = k then (k, v) :: rest else (k1, v1) :: mapSet rest k v

/-- Builtin `delete(m, k)`. -/
def mapDelete {V : Type} : List (String × V) → String → List (String × V)
  | [], _ => []
  | (k1, v1) :: rest, k => if k1 = k then mapDelete rest k else (k1, v1) :: mapDelete rest k

/-! ## Strings and `sort.Strings` -/

/-- Lexicographic `<` on character sequences, by code point (which is the byte
order of the UTF-8 encoding compared by Go's `<` on strings). -/
def lessChars : List Char → List Char → Bool
  | [], [] => false
  | [], _ :: _ => true
  | _ :: _, [] => false
  | a :: as, b :: bs =>
    if a.toNat < b.toNat then true
    else if b.toNat < a.toNat then false
    else lessChars as bs

/-- Go's `a < b` on strings. -/
def stringLess (a b : String) : Bool := lessChars a.data b.data

/-- The order `a ≤ b` on strings, as `!(b < a)`. -/
def StrLE (a b : String) : Prop := stringLess b a = false

instance instDecidableStrLE : DecidableRel StrLE :=
  fun a b => inferInstanceAs (Decidable (stringLess b a = false))

/-- The call `sort.Strings(xs)`: the ascending rearrangement of `xs`. Equal strings are
indistinguishable, so the result does not depend on the sorting algorithm. -/
def sortStrings (xs : List String) : List String := List.insertionSort StrLE xs

/-! ## Panics -/

/-- The ways a run can abort. -/
inductive Panic where
  /-- The value `errors.New("cyclic dependency detected")` of `getSortedTables`. -/
  | cyclicDependency
  /-- A slice index out of range inside `Graph.Toposort`. -/
  | indexOutOfRange
  /-- A call `panic(msg)` with a string message. -/
  | text (msg : String)
  /-- The step bound of the embedding of the `for len(S) > 0` loop was reached;
  `toposortLoop_fuel` shows that the bound passed by `Toposort` is never reached on a graph
  of distinct nodes and distinct edges, such as `getSortedTables` builds. -/
  | stepBound
  deriving DecidableEq, Repr

/-! ## The topological sorter (`github.com/philopon/go-toposort`) -/

/-- The sorter's `Graph`: `nodes` in registration order, `outputs[n]` mapping each
successor of `n` to its 1-based insertion rank, `inputs[n]` the number of incoming edges. -/
structure Graph where
  nodes : List String
  outputs : List (String × List (String × Nat))
  inputs : List (String × Int)
  deriving DecidableEq, Repr

/-- Constructor `toposort.NewGraph(cap)`: the capacity only pre-allocates. -/
def NewGraph (_cap : Nat) : Graph := ⟨[], [], []⟩

/-- Read `g.inputs[n]`: a missing key reads as `0`. -/
def Graph.input (g : Graph) (n : String) : Int := (mapGet g.inputs n).getD 0

/-- Method `Graph.AddNode`: append to `nodes`; unless already known, give the node an
empty successor map and in-degree `0`. -/
def Graph.AddNode (g : Graph) (name : String) : Graph × Bool :=
  let g1 : Graph := { g with nodes := g.nodes ++ [name] }
  match mapGet g.outputs name with
  | some _ => (g1, false)
  | none =>
    ({ g1 with outputs := mapSet g.outputs name [], inputs := mapSet g.inputs name 0 }, true)

/-- Method `Graph.AddEdge(from, to)`: `m[to] = len(m) + 1; g.inputs[to]++` where
`m = g.outputs[from]`; refused when `from` is not a node. -/
def Graph.AddEdge (g : Graph) (src dst : String) : Graph × Bool :=
  match mapGet g.outputs src with
  | none => (g, false)
  | some m =>
    ({ g with
        outputs := mapSet g.outputs src (mapSet m dst (m.length + 1)),
        inputs := mapSet g.inputs dst (g.input dst + 1) }, true)

/-- Method `Graph.unsafeRemoveEdge(from, to)`: `delete(g.outputs[from], to); g.inputs[to]--`. -/
def Graph.unsafeRemoveEdge (g : Graph) (src dst : String) : Graph :=
  { g with
      outputs :=
        match mapGet g.outputs src with
        | none => g.outputs
        | some m => mapSet g.outputs src (mapDelete m dst),
      inputs := mapSet g.inputs dst (g.input dst - 1) }

/-- The slice `ms` of `Toposort`: `ms := make([]string, len(m)); for k, i := range m { ms[i-1] = k }`.
`none` when an index falls outside the slice. -/
def outputOrder (m : List (String × Nat)) : Option (List String) :=
  m.foldl
    (fun acc e => acc.bind fun ms =>
      if 1 ≤ e.2 ∧ e.2 - 1 < ms.length then some (ms.set (e.2 - 1) e.1) else none)
    (some (List.replicate m.length ""))

/-- The inner loop of `Toposort`: `for _, m := range ms { g.unsafeRemoveEdge(n, m); if
g.inputs[m] == 0 { S = append(S, m) } }`. -/
def Graph.releaseOutputs (n : String) : List String → Graph → List String → Graph × List String
  | [], g, S => (g, S)
  | m :: ms, g, S =>
    let g1 := g.unsafeRemoveEdge n m
    Graph.releaseOutputs n ms g1 (if g1.input m = 0 then S ++ [m] else S)

/-- The loop `for len(S) > 0` of `Toposort`, bounded by `fuel` iterations: pop the head
`n` of the queue `S`, append it to `L`, release its successors. Returns the final graph
and `L`. -/
def Graph.toposortLoop : Nat → Graph → List String → List String → Except Panic (Graph × List String)
  | _, g, [], L => .ok (g, L)
  | 0, _, _ :: _, _ => .error .stepBound
  | fuel + 1, g, n :: S, L =>
    match outputOrder ((mapGet g.outputs n).getD []) with
    | none => .error .indexOutOfRange
    | some ms =>
      let r := Graph.releaseOutputs n ms g S
      Graph.toposortLoop fuel r.1 r.2 (L ++ [n])

/-- Number of edges still stored in `outputs`. -/
def Graph.edgeCount (g : Graph) : Nat := (g.outputs.map fun e => e.2.length).sum

/-- Method `Graph.Toposort`: Kahn's algorithm with a first-in first-out queue seeded with
the nodes of in-degree `0` in registration order; `ok` is false when some in-degree is
left positive. -/
def Graph.Toposort (g : Graph) : Except Panic (List String × Bool) :=
  let S := g.nodes.filter fun n => g.input n = 0
  match Graph.toposortLoop (g.nodes.length + g.edgeCount) g S [] with
  | .error e => .error e
  | .ok (g1, L) =>
    let N := (g1.inputs.map Prod.snd).sum
    .ok (L, !decide (N > 0))

/-! ## Data model of `mysql.go` -/

/-- The string type `ReferenceOption`. -/
abbrev ReferenceOption := String

def ReferenceOptionRestrict : ReferenceOption := "RESTRICT"
def ReferenceOptionCascade : ReferenceOption := "CASCADE"
def ReferenceOptionSetNull : ReferenceOption := "SET NULL"

structure MysqlField where
  Name : String
  Typ : String
  Nullable : Bool
  AutoIncrement : Bool
  deriving DecidableEq, Repr

structure ForeignKey where
  SourceColumns : List String
  RefTable : String
  RefColumns : List String
  OnUpdate : ReferenceOption
  OnDelete : ReferenceOption
  deriving DecidableEq, Repr

structure Table where
  Name : String
  SimpleFields : List MysqlField
  PrimaryKeys : List String
  UniqueKeys : List (String × List String)
  CompositeKeys : List (String × List String)
  ForeignKeys : List ForeignKey
  deriving DecidableEq, Repr

/-- Modelled from the spec: the declaration of the edge kind is not in `mysql.go`, which
only names `EdgeTypeOneOne`, `EdgeTypeOneMulti` and `EdgeTypeMultiOneParent`. The spec
gives the closed enumeration `OneToOne`, `OneToMany`, `ManyToOne`, `ManyToOneWithParent`. -/
inductive EdgeType where
  | EdgeTypeOneOne
  | EdgeTypeOneMulti
  | EdgeTypeMultiOne
  | EdgeTypeMultiOneParent
  deriving DecidableEq, Repr

open EdgeType

/-- Modelled from the spec: the declaration of `Edge` is not in `mysql.go`, which reads its
fields `Name`, `PeerTable` and `Type` (here `Typ`). -/
structure Edge where
  Name : String
  PeerTable : String
  Typ : EdgeType
  deriving DecidableEq, Repr

/-- The part of a `reflect.Type` that the code reads, `typ.Name()`, and a tag telling
apart distinct types of one name. -/
structure ReflectType where
  Name : String
  tag : Nat
  deriving DecidableEq, Repr

/-- An address of a `MainTable` object. -/
abbrev Ptr := Nat

/-- Struct `MainTable`, with the embedded `*Table` as parent structure. -/
structure MainTable extends Table where
  AuxTables : List Table
  Edges : List Edge
  Typ : ReflectType
  knownParent : Option Ptr
  yielded : Bool
  deriving DecidableEq, Repr

/-- Function `NewTable`. -/
def NewTable (name : String) : Table :=
  { Name := name, SimpleFields := [], PrimaryKeys := [], UniqueKeys := [],
    CompositeKeys := [], ForeignKeys := [] }

/-- Function `NewMainTable`. -/
def NewMainTable (typ : ReflectType) : MainTable :=
  { toTable := NewTable typ.Name, Edges := [], AuxTables := [], Typ := typ,
    knownParent := none, yielded := false }

/-- The heap of `MainTable` objects; an address is an index, allocation appends. -/
abbrev Heap := List MainTable

/-- Dereference. Addresses only come from allocation, so in every state the program can
reach the fallback value is not used (`Inv`). -/
def deref (h : Heap) (p : Ptr) : MainTable := h.getD p (NewMainTable ⟨"", 0⟩)

/-- Struct `Schema`. -/
structure Schema where
  Tables : List (String × Ptr)
  sortedList : List (Option Ptr)
  graphOutdated : Bool
  deriving DecidableEq, Repr

/-- The visiting orders of the three `range schema.Tables` loops of `getSortedTables`:
the loop collecting names, the outer loop over dependents, and, for each dependent, the
inner loop over dependencies. -/
structure MapOrder where
  names : List (String × Ptr) → List (String × Ptr)
  outer : List (String × Ptr) → List (String × Ptr)
  inner : String × Ptr → List (String × Ptr) → List (String × Ptr)

/-- Every `range` visits each entry of the map exactly once. -/
def MapOrder.Valid (o : MapOrder) : Prop :=
  (∀ l, (o.names l).Perm l) ∧ (∀ l, (o.outer l).Perm l) ∧ ∀ e l, (o.inner e l).Perm l

/-- The visiting order that follows the association list. -/
def MapOrder.inOrder : MapOrder := ⟨id, id, fun _ => id⟩

/-- The visiting order in which the outer loop runs backwards. -/
def MapOrder.outerReversed : MapOrder := ⟨id, List.reverse, fun _ => id⟩

/-! ## Operations of `mysql.go` -/

/-- Method `MainTable.Depends`, on the receiver `table` and the argument `dependency`. -/
def Depends (h : Heap) (table dependency : Ptr) : Bool :=
  if (deref h table).knownParent = some dependency then true
  else (deref h table).Edges.any fun edge =>
    edge.Typ != EdgeTypeOneOne && edge.Typ != EdgeTypeOneMulti
      && edge.PeerTable == (deref h dependency).Name

/-- Method `Schema.getTable`: returns the table, the heap and the schema. -/
def Schema.getTable (h : Heap) (schema : Schema) (typ : ReflectType) :
    Option Ptr × Heap × Schema :=
  let st : Heap × Schema :=
    match mapGet schema.Tables typ.Name with
    | some _ => (h, schema)
    | none =>
      (h ++ [NewMainTable typ],
        { schema with graphOutdated := true, Tables := mapSet schema.Tables typ.Name h.length })
  (mapGet st.2.Tables typ.Name, st.1, st.2)

/-- The two nested `range schema.Tables` loops of `getSortedTables` that add the edges. -/
def addEdges (o : MapOrder) (h : Heap) (tables : List (String × Ptr)) (graph : Graph) : Graph :=
  (o.outer tables).foldl
    (fun g dependent =>
      (o.inner dependent tables).foldl
        (fun g dependency =>
          if dependent.2 ≠ dependency.2 ∧ Depends h dependent.2 dependency.2 = true then
            (g.AddEdge (deref h dependency.2).Name (deref h dependent.2).Name).1
          else g)
        g)
    graph

/-- The graph that `getSortedTables` hands to `Toposort`. -/
def buildGraph (o : MapOrder) (h : Heap) (schema : Schema) : Graph :=
  let graph := NewGraph schema.Tables.length
  let tables := (o.names schema.Tables).map fun e => (deref h e.2).Name
  let tables := sortStrings tables
  let graph := tables.foldl (fun g table => (g.AddNode table).1) graph
  addEdges o h schema.Tables graph

/-- Method `Schema.getSortedTables`: returns the slice `schema.sortedList` and the schema. -/
def Schema.getSortedTables (o : MapOrder) (h : Heap) (schema : Schema) :
    Except Panic (List (Option Ptr) × Schema) :=
  if schema.graphOutdated then
    let graph := buildGraph o h schema
    match graph.Toposort with
    | .error e => .error e
    | .ok (names, ok) =>
      if !ok then .error .cyclicDependency
      else
        let sorted := names.map fun name => mapGet schema.Tables name
        .ok (sorted, { schema with sortedList := sorted })
  else .ok (schema.sortedList, schema)

/-- Method `Schema.mustGetTable`: returns the table or panics, and the schema as the call
leaves it. -/
def Schema.mustGetTable (schema : Schema) (name : String) : Except Panic Ptr × Schema :=
  match mapGet schema.Tables name with
  | none => (.error (.text ("table " ++ name ++ " does not exist")), schema)
  | some table => (.ok table, schema)

/-- Method `Table.FindField`: the first field of `SimpleFields` named `name`, or a panic. -/
def Table.FindField (table : Table) (name : String) : Except Panic MysqlField :=
  match table.SimpleFields.find? fun field => field.Name == name with
  | some field => .ok field
  | none => .error (.text ("field " ++ name ++ " not found in " ++ table.Name))

/-- Method `MainTable.FindEdgeByName`: the first edge named `name`, or `nil`. -/
def MainTable.FindEdgeByName (table : MainTable) (name : String) : Option Edge :=
  table.Edges.find? fun edge => edge.Name == name

/-- Method `MainTable.FindEdgeByPeerTable`: the first edge to `peerTable`, or `nil`. -/
def MainTable.FindEdgeByPeerTable (table : MainTable) (peerTable : String) : Option Edge :=
  table.Edges.find? fun edge => edge.PeerTable == peerTable

/-- Function `MakeForeignKey`: `OnDelete` is not set and keeps the zero value of its string
type. -/
def MakeForeignKey (refTable : String) : ForeignKey :=
  { SourceColumns := [], RefTable := refTable, RefColumns := [],
    OnUpdate := ReferenceOptionRestrict, OnDelete := "" }

instance instDecidableEqExcept {ε α : Type} [DecidableEq ε] [DecidableEq α] :
    DecidableEq (Except ε α) := fun a b =>
  match a, b with
  | .ok x, .ok y => if hxy : x = y then isTrue (by rw [hxy]) else isFalse (fun hc => hxy (by cases hc; rfl))
  | .error x, .error y =>
    if hxy : x = y then isTrue (by rw [hxy]) else isFalse (fun hc => hxy (by cases hc; rfl))
  | .ok _, .error _ => isFalse (fun hc => by cases hc)
  | .error _, .ok _ => isFalse (fun hc => by cases hc)

/-! ## Vocabulary of the properties -/

/-- The schema before any registration: an empty map, no cached ordering, flag unset. -/
def emptySchema : Schema := ⟨[], [], false⟩

/-- The table at address `p` is a value of `schema.Tables`. -/
def Registered (s : Schema) (p : Ptr) : Prop := p ∈ s.Tables.map Prod.snd

/-- The relation `a.Depends(b)` between registered tables. -/
def DependsOn (h : Heap) (s : Schema) (a b : Ptr) : Prop :=
  Registered s a ∧ Registered s b ∧ Depends h a b = true

/-- The `Depends` relation over the registered tables has no cycle. -/
def Acyclic (h : Heap) (s : Schema) : Prop := ∀ a, ¬ Relation.TransGen (DependsOn h s) a a

/-- In the sequence `l`, `x` occurs at a strictly smaller index than `y`. -/
def Before {α : Type} (l : List α) (x y : α) : Prop :=
  ∃ i j : Nat, i < j ∧ l[i]? = some x ∧ l[j]? = some y

/-- States built from the empty schema by `getTable` registrations, with the contents of
the tables (edges, `knownParent`, columns, keys) filled in between or afterwards; the
`Name` of a table never changes. -/
inductive Built : Heap → Schema → Prop where
  | empty : Built [] emptySchema
  | getTable (h : Heap) (s : Schema) (typ : ReflectType) :
      Built h s → Built (Schema.getTable h s typ).2.1 (Schema.getTable h s typ).2.2
  | populate (h : Heap) (s : Schema) (p : Ptr) (t : MainTable) :
      Built h s → p < h.length → t.Name = (deref h p).Name → Built (h.set p t) s

/-- States reachable from the empty schema by `getTable`, by filling in tables, and by
calls of `getSortedTables` that return. -/
inductive Reachable : Heap → Schema → Prop where
  | empty : Reachable [] emptySchema
  | getTable (h : Heap) (s : Schema) (typ : ReflectType) :
      Reachable h s → Reachable (Schema.getTable h s typ).2.1 (Schema.getTable h s typ).2.2
  | populate (h : Heap) (s : Schema) (p : Ptr) (t : MainTable) :
      Reachable h s → p < h.length → t.Name = (deref h p).Name → Reachable (h.set p t) s
  | getSortedTables (o : MapOrder) (h : Heap) (s : Schema) (r : List (Option Ptr)) (s1 : Schema) :
      Reachable h s → o.Valid → Schema.getSortedTables o h s = .ok (r, s1) → Reachable h s1

/-- The registry invariant: one entry per key, every entry points to an allocated table
named by its key, and a schema whose flag is unset has no table and no cached ordering. -/
def Inv (h : Heap) (s : Schema) : Prop :=
  (s.Tables.map Prod.fst).Nodup ∧
  (∀ e ∈ s.Tables, e.2 < h.length ∧ (deref h e.2).Name = e.1) ∧
  (s.graphOutdated = false → s.Tables = [] ∧ s.sortedList = [])

/-! ## Vocabulary of the proofs about the sorter -/

/-- Successors of `u` in an edge list, in insertion order. -/
def succs (E : List (String × String)) (u : String) : List String :=
  (E.filter fun e => e.1 = u).map Prod.snd

/-- In-degree of `v` in an edge list. -/
def inDeg (E : List (String × String)) (v : String) : Nat :=
  (E.filter fun e => e.2 = v).length

/-- The successor map holding `l` with insertion ranks `i, i+1, ...`. -/
def rankedFrom : Nat → List String → List (String × Nat)
  | _, [] => []
  | i, x :: xs => (x, i) :: rankedFrom (i + 1) xs

/-- The graph `g` stores the node list `nodes` and the edge list `E`. -/
structure GraphRep (nodes : List String) (E : List (String × String)) (g : Graph) : Prop where
  nodes_eq : g.nodes = nodes
  outputs_eq : ∀ u, mapGet g.outputs u = if u ∈ nodes then some (rankedFrom 1 (succs E u)) else none
  inputs_nodup : (g.inputs.map Prod.fst).Nodup
  input_eq : ∀ v, g.input v = (inDeg E v : Int)

/-- The edges that are left once the nodes of `L` have been output. -/
def remaining (E : List (String × String)) (L : List String) : List (String × String) :=
  E.filter fun e => decide (e.1 ∉ L)

/-- The loop invariant of Kahn's algorithm, on queue `S` and output `L`. -/
structure KahnInv (nodes : List String) (E : List (String × String)) (S L : List String) : Prop where
  nodup : (L ++ S).Nodup
  sub : ∀ x ∈ L ++ S, x ∈ nodes
  ready : ∀ v ∈ nodes, (v ∈ L ++ S ↔ inDeg (remaining E L) v = 0)
  order : ∀ e ∈ E, e.2 ∈ L → List.indexOf e.1 L < List.indexOf e.2 L

/-- The condition under which `getSortedTables` adds the edge of `dependent` and `dependency`. -/
def edgeCond (h : Heap) (dependent dependency : String × Ptr) : Bool :=
  decide (dependent.2 ≠ dependency.2 ∧ Depends h dependent.2 dependency.2 = true)

/-- The edges `(dependency.Name, dependent.Name)` in the order in which the two nested loops
of `getSortedTables` add them. -/
def edgeList (o : MapOrder) (h : Heap) (tables : List (String × Ptr)) : List (String × String) :=
  (o.outer tables).flatMap fun dependent =>
    ((o.inner dependent tables).filter fun dependency => edgeCond h dependent dependency).map
      fun dependency => ((deref h dependency.2).Name, (deref h dependent.2).Name)

/-- The node names in the order in which `getSortedTables` registers them. -/
def nodeList (o : MapOrder) (h : Heap) (s : Schema) : List String :=
  sortStrings ((o.names s.Tables).map fun e => (deref h e.2).Name)

instance instDecidableRegistered (s : Schema) (p : Ptr) : Decidable (Registered s p) :=
  inferInstanceAs (Decidable (p ∈ s.Tables.map Prod.snd))

instance instDecidableDependsOn (h : Heap) (s : Schema) (a b : Ptr) :
    Decidable (DependsOn h s a b) :=
  inferInstanceAs (Decidable (Registered s a ∧ Registered s b ∧ Depends h a b = true))

/-! ## Example schemas -/

/-- Register a type of the given name, keeping the heap and the schema. -/
def register (st : Heap × Schema) (name : String) : Heap × Schema :=
  ((Schema.getTable st.1 st.2 ⟨name, 0⟩).2.1, (Schema.getTable st.1 st.2 ⟨name, 0⟩).2.2)

/-- The assignment `table.Edges = edges` on the table at address `p`. -/
def setEdges (h : Heap) (p : Ptr) (edges : List Edge) : Heap :=
  h.set p { deref h p with Edges := edges }

/-- The registry holding `Order` (address 0) and `Customer` (address 1). -/
def orderSchema : Schema := (register (register ([], emptySchema) "Order") "Customer").2

/-- The tables `Order` and `Customer`, where `Order` has the edge
`{customer, Customer, ManyToOne}`. -/
def orderHeap : Heap :=
  setEdges (register (register ([], emptySchema) "Order") "Customer").1 0
    [⟨"customer", "Customer", EdgeTypeMultiOne⟩]

/-- The registry holding `Foo` (address 0) and `Bar` (address 1). -/
def fooBarSchema : Schema := (register (register ([], emptySchema) "Foo") "Bar").2

/-- The tables `Foo` and `Bar`, each with a `ManyToOne` edge to the other. -/
def fooBarHeap : Heap :=
  setEdges
    (setEdges (register (register ([], emptySchema) "Foo") "Bar").1 0
      [⟨"bar", "Bar", EdgeTypeMultiOne⟩])
    1 [⟨"foo", "Foo", EdgeTypeMultiOne⟩]

/-- The registry holding `Gamma`, `Alpha` and `Beta`, registered in this order. -/
def greekSchema : Schema :=
  (register (register (register ([], emptySchema) "Gamma") "Alpha") "Beta").2

/-- The tables `Gamma`, `Alpha` and `Beta`, without edges. -/
def greekHeap : Heap :=
  (register (register (register ([], emptySchema) "Gamma") "Alpha") "Beta").1

/-- The registry holding `A` (address 0), `B` (address 1) and `C` (address 2). -/
def fanSchema : Schema := (register (register (register ([], emptySchema) "A") "B") "C").2

/-- The tables `A`, `B` and `C`, where `B` and `C` each have a `ManyToOne` edge to `A`. -/
def fanHeap : Heap :=
  setEdges
    (setEdges (register (register (register ([], emptySchema) "A") "B") "C").1 1
      [⟨"a", "A", EdgeTypeMultiOne⟩])
    2 [⟨"a", "A", EdgeTypeMultiOne⟩]

/-- The tables `Order` and `Customer` right after registration, without edges. -/
def plainHeap : Heap := (register (register ([], emptySchema) "Order") "Customer").1

/-- The tables `Order` and `Customer` after `Customer` was given the edge
`{order, Order, ManyToOne}`. -/
def staleHeap : Heap := setEdges plainHeap 1 [⟨"order", "Order", EdgeTypeMultiOne⟩]

/-- The tables `A` and `B`, where the only edge of `A` is a `OneToOne` edge to `B`. -/
def oneOneHeap : Heap :=
  setEdges (register (register ([], emptySchema) "A") "B").1 0 [⟨"b", "B", EdgeTypeOneOne⟩]

/-- The schema `orderSchema` after a call of `getSortedTables` that cached `Customer, Order`. -/
def orderSorted : Schema :=
  { Tables := orderSchema.Tables, sortedList := [some 1, some 0], graphOutdated := true }

/-- A type named `Invoice`. -/
def invoiceType : ReflectType := ⟨"Invoice", 0⟩

/-! ## Vocabulary of the later properties -/

/-- In the sequence `l`, `x` is the first element that satisfies `p`. -/
def FirstWith {α : Type} (p : α → Prop) (l : List α) (x : α) : Prop :=
  ∃ pre post, l = pre ++ x :: post ∧ p x ∧ ∀ y ∈ pre, ¬ p y

/-- The cached ordering `l` is a valid topological order of the registered tables: as long
as `Tables`, every registered table in it exactly once and nothing else, every dependency
at a smaller index than its dependent. -/
def ValidOrder (h : Heap) (s : Schema) (l : List (Option Ptr)) : Prop :=
  l.length = s.Tables.length ∧
  (∀ x ∈ l, ∃ p, x = some p ∧ Registered s p) ∧
  (∀ p, Registered s p → List.countP (fun x => decide (x = some p)) l = 1) ∧
  ∀ a b, Registered s a → Registered s b → Depends h a b = true → Before l (some b) (some a)

/-- The names of the registered tables. -/
def registeredNames (h : Heap) (s : Schema) : List String :=
  s.Tables.map fun e => (deref h e.2).Name

/-- The table `t` without its dangling references: the edges whose `PeerTable` names no
registered table, and a `knownParent` that is not a registered table. -/
def dropDangling (h : Heap) (s : Schema) (t : MainTable) : MainTable :=
  { t with
      Edges := t.Edges.filter fun e => decide (e.PeerTable ∈ registeredNames h s),
      knownParent := t.knownParent.filter fun q => decide (Registered s q) }

/-- The heap in which every table has lost its dangling references. -/
def withoutDangling (h : Heap) (s : Schema) : Heap := h.map (dropDangling h s)

/-- The table `t` at address `p` without its self-references: the edges of a
dependency-creating kind whose `PeerTable` is its own `Name`, and a `knownParent` that is
`p` itself. -/
def dropSelf (p : Ptr) (t : MainTable) : MainTable :=
  { t with
      Edges := t.Edges.filter fun e =>
        !(e.Typ != EdgeTypeOneOne && e.Typ != EdgeTypeOneMulti && e.PeerTable == t.Name),
      knownParent := t.knownParent.filter fun q => decide (q ≠ p) }

/-- The tables of `h`, stored from address `p` on, without their self-references. -/
def dropSelfFrom : Ptr → Heap → Heap
  | _, [] => []
  | p, t :: rest => dropSelf p t :: dropSelfFrom (p + 1) rest

/-- The heap in which every table has lost its self-references. -/
def withoutSelf (h : Heap) : Heap := dropSelfFrom 0 h

/-- No entry of the cached ordering is `nil`, and each is a registered table. -/
def SortedInv (s : Schema) : Prop := ∀ x ∈ s.sortedList, ∃ p, x = some p ∧ Registered s p

/-- A type named `Order`, and another type of the same name. -/
def orderType : ReflectType := ⟨"Order", 0⟩

/-- Another type named `Order`. -/
def otherOrderType : ReflectType := ⟨"Order", 1⟩

/-- A table `users` with the columns `id` and `name`, and a second column named `id`. -/
def usersTable : Table :=
  { NewTable "users" with
      SimpleFields :=
        [⟨"id", "BIGINT", false, true⟩, ⟨"name", "VARCHAR(255)", true, false⟩,
          ⟨"id", "INT", false, false⟩] }

/-- The table `Order` with two edges to `Customer` and one to `Item`. -/
def edgesTable : MainTable :=
  { NewMainTable orderType with
      Edges :=
        [⟨"buyer", "Customer", EdgeTypeMultiOne⟩, ⟨"item", "Item", EdgeTypeOneMulti⟩,
          ⟨"payer", "Customer", EdgeTypeMultiOne⟩] }

/-- The tables `Order` and `Customer`, where `Order` has a `ManyToOne` edge to `Customer`, a
`ManyToOne` edge to the unregistered `Ghost`, and a `knownParent` that is not registered. -/
def danglingHeap : Heap :=
  plainHeap.set 0
    { deref plainHeap 0 with
        Edges := [⟨"customer", "Customer", EdgeTypeMultiOne⟩, ⟨"ghost", "Ghost", EdgeTypeMultiOne⟩],
        knownParent := some 7 }

/-- The tables `Order` and `Customer`, where `Order` has a `ManyToOne` edge to `Customer`, a
`ManyToOne` edge to `Order` itself, and is its own `knownParent`. -/
def selfHeap : Heap :=
  plainHeap.set 0
    { deref plainHeap 0 with
        Edges := [⟨"customer", "Customer", EdgeTypeMultiOne⟩, ⟨"parent", "Order", EdgeTypeMultiOne⟩],
        knownParent := some 0 }

/-! ## Vocabulary of the revised properties -/

/-- The heap `h1` comes from `h` by filling in tables (edges, `knownParent`, columns, keys):
no table is allocated and no `Name` changes. -/
inductive Populated : Heap → Heap → Prop where
  | refl (h : Heap) : Populated h h
  | step (h h1 : Heap) (p : Ptr) (t : MainTable) :
      Populated h h1 → p < h1.length → t.Name = (deref h1 p).Name → Populated h (h1.set p t)

/-- The sequence `l` is a topological order of the registered tables: as long as `Tables`,
every registered table in it exactly once and nothing else, and every table at a greater
index than each other table it depends on. -/
def CachedOrder (h : Heap) (s : Schema) (l : List (Option Ptr)) : Prop :=
  l.length = s.Tables.length ∧
  (∀ x ∈ l, ∃ p, x = some p ∧ Registered s p) ∧
  (∀ p, Registered s p → List.countP (fun x => decide (x = some p)) l = 1) ∧
  ∀ a b, Registered s a → Registered s b → a ≠ b → Depends h a b = true →
    Before l (some b) (some a)

/-- The tables `Order`, `Customer` and the newly registered `Invoice`, after `Invoice` was
given the edge `{order, Order, ManyToOne}`. -/
def invoiceHeap : Heap :=
  setEdges (Schema.getTable orderHeap orderSorted invoiceType).2.1 2
    [⟨"order", "Order", EdgeTypeMultiOne⟩]

/-! # Theorems -/

/-! ## Properties of Go maps -/

theorem mapGet_mapSet_self {V : Type} (m : List (String × V)) (k : String) (v : V) :
    mapGet (mapSet m k v) k = some v := by
  induction m with
  | nil => simp [mapSet, mapGet]
  | cons e rest ih =>
    obtain ⟨k1, v1⟩ := e
    by_cases hk : k1 = k
    · simp [mapSet, mapGet, hk]
    · simp [mapSet, mapGet, hk, ih]

theorem mapGet_mapSet_ne {V : Type} (m : List (String × V)) (k k2 : String) (v : V)
    (hne : k2 ≠ k) : mapGet (mapSet m k v) k2 = mapGet m k2 := by
  induction m with
  | nil => simp [mapSet, mapGet, Ne.symm hne]
  | cons e rest ih =>
    obtain ⟨k1, v1⟩ := e
    by_cases hk : k1 = k
    · subst hk
      simp [mapSet, mapGet, Ne.symm hne]
    · by_cases hk2 : k1 = k2
      · subst hk2
        simp [mapSet, mapGet, hk]
      · simp [mapSet, mapGet, hk, hk2, ih]

theorem mapGet_eq_none_iff {V : Type} (m : List (String × V)) (k : String) :
    mapGet m k = none ↔ k ∉ m.map Prod.fst := by
  induction m with
  | nil => simp [mapGet]
  | cons e rest ih =>
    obtain ⟨k1, v1⟩ := e
    by_cases hk : k1 = k
    · simp [mapGet, hk]
    · simp [mapGet, hk, ih, Ne.symm hk]

theorem mem_of_mapGet {V : Type} (m : List (String × V)) (k : String) (v : V)
    (hg : mapGet m k = some v) : (k, v) ∈ m := by
  induction m with
  | nil => simp [mapGet] at hg
  | cons e rest ih =>
    obtain ⟨k1, v1⟩ := e
    by_cases hk : k1 = k
    · simp [mapGet, hk] at hg
      simp [hk, hg]
    · simp [mapGet, hk] at hg
      exact List.mem_cons_of_mem _ (ih hg)

theorem mapGet_of_mem {V : Type} (m : List (String × V)) (k : String) (v : V)
    (hnd : (m.map Prod.fst).Nodup) (hmem : (k, v) ∈ m) : mapGet m k = some v := by
  induction m with
  | nil => simp at hmem
  | cons e rest ih =>
    obtain ⟨k1, v1⟩ := e
    simp only [List.map_cons, List.nodup_cons] at hnd
    rcases List.mem_cons.mp hmem with heq | hin
    · cases heq
      simp [mapGet]
    · have hk : k1 ≠ k := by
        rintro rfl
        exact hnd.1 (List.mem_map_of_mem Prod.fst hin)
      simp [mapGet, hk, ih hnd.2 hin]

theorem mapSet_keys {V : Type} (m : List (String × V)) (k : String) (v : V) :
    (mapSet m k v).map Prod.fst =
      if k ∈ m.map Prod.fst then m.map Prod.fst else m.map Prod.fst ++ [k] := by
  induction m with
  | nil => simp [mapSet]
  | cons e rest ih =>
    obtain ⟨k1, v1⟩ := e
    by_cases hk : k1 = k
    · simp [mapSet, hk]
    · have hk2 : ¬ k = k1 := fun h => hk h.symm
      simp only [mapSet, hk, if_false, List.map_cons, ih, List.mem_cons, hk2, false_or]
      split <;> simp

theorem mapSet_keys_nodup {V : Type} (m : List (String × V)) (k : String) (v : V)
    (hnd : (m.map Prod.fst).Nodup) : ((mapSet m k v).map Prod.fst).Nodup := by
  rw [mapSet_keys]
  split
  · exact hnd
  · rename_i hk
    exact List.Nodup.append hnd (List.nodup_singleton k) (by simpa using hk)

theorem mapSet_of_not_mem {V : Type} (m : List (String × V)) (k : String) (v : V)
    (hk : k ∉ m.map Prod.fst) : mapSet m k v = m ++ [(k, v)] := by
  induction m with
  | nil => simp [mapSet]
  | cons e rest ih =>
    obtain ⟨k1, v1⟩ := e
    simp only [List.map_cons, List.mem_cons, not_or] at hk
    have hk1 : ¬ k1 = k := fun h => hk.1 h.symm
    simp [mapSet, hk1, ih hk.2]

/-! ## The string order -/

theorem lessChars_asymm (a b : List Char) (hab : lessChars a b = true) :
    lessChars b a = false := by
  induction a generalizing b with
  | nil => cases b <;> simp [lessChars] at hab ⊢
  | cons x xs ih =>
    cases b with
    | nil => simp [lessChars] at hab
    | cons y ys =>
      simp only [lessChars] at hab ⊢
      by_cases h1 : x.toNat < y.toNat
      · have h2 : ¬ y.toNat < x.toNat := by omega
        simp [h2, h1]
      · by_cases h2 : y.toNat < x.toNat
        · simp [h1, h2] at hab
        · simp only [h1, h2, if_false] at hab ⊢
          exact ih ys hab

theorem lessChars_negTrans (a b c : List Char) (hca : lessChars c a = true) :
    lessChars b a = true ∨ lessChars c b = true := by
  induction c generalizing a b with
  | nil =>
    cases a with
    | nil => simp [lessChars] at hca
    | cons x xs =>
      cases b with
      | nil => left; simp [lessChars]
      | cons y ys => right; simp [lessChars]
  | cons z zs ih =>
    cases a with
    | nil => simp [lessChars] at hca
    | cons x xs =>
      cases b with
      | nil => left; simp [lessChars]
      | cons y ys =>
        simp only [lessChars] at hca ⊢
        by_cases h1 : z.toNat < x.toNat
        · by_cases h2 : y.toNat < x.toNat
          · left; simp [h2]
          · by_cases h3 : z.toNat < y.toNat
            · right; simp [h3]
            · exfalso; omega
        · by_cases h2 : x.toNat < z.toNat
          · simp [h1, h2] at hca
          · simp only [h1, h2, if_false] at hca
            by_cases h3 : y.toNat < x.toNat
            · left; simp [h3]
            · by_cases h4 : z.toNat < y.toNat
              · right; simp [h4]
              · have h5 : ¬ x.toNat < y.toNat := by omega
                have h6 : ¬ y.toNat < z.toNat := by omega
                simp only [h3, h4, h5, h6, if_false]
                exact ih xs ys hca

theorem lessChars_connex (a b : List Char) (hab : lessChars a b = false)
    (hba : lessChars b a = false) : a = b := by
  induction a generalizing b with
  | nil => cases b <;> simp [lessChars] at hab ⊢
  | cons x xs ih =>
    cases b with
    | nil => simp [lessChars] at hba
    | cons y ys =>
      simp only [lessChars] at hab hba
      by_cases h1 : x.toNat < y.toNat
      · simp [h1] at hab
      · by_cases h2 : y.toNat < x.toNat
        · simp [h2] at hba
        · simp only [h1, h2, if_false] at hab hba
          have hxy : x = y := by
            apply Char.ext
            apply UInt32.ext
            have : x.toNat = y.toNat := by omega
            exact this
          rw [hxy, ih ys hab hba]

theorem StrLE_total (a b : String) : StrLE a b ∨ StrLE b a := by
  unfold StrLE stringLess
  cases hba : lessChars b.data a.data
  · left; rfl
  · right; exact lessChars_asymm _ _ hba

theorem StrLE_trans (a b c : String) (hab : StrLE a b) (hbc : StrLE b c) : StrLE a c := by
  unfold StrLE stringLess at *
  cases hca : lessChars c.data a.data
  · rfl
  · rcases lessChars_negTrans a.data b.data c.data hca with h | h
    · rw [h] at hab; exact absurd hab (by simp)
    · rw [h] at hbc; exact absurd hbc (by simp)

theorem StrLE_antisymm (a b : String) (hab : StrLE a b) (hba : StrLE b a) : a = b := by
  unfold StrLE stringLess at *
  exact String.ext (lessChars_connex a.data b.data hba hab)

theorem sortStrings_perm (xs : List String) : (sortStrings xs).Perm xs :=
  List.perm_insertionSort StrLE xs

theorem sortStrings_sorted (xs : List String) : List.Sorted StrLE (sortStrings xs) :=
  @List.sorted_insertionSort _ StrLE _ ⟨StrLE_total⟩ ⟨StrLE_trans⟩ xs

theorem sortStrings_eq_of_perm (xs ys : List String) (hp : xs.Perm ys) :
    sortStrings xs = sortStrings ys :=
  @List.eq_of_perm_of_sorted _ StrLE ⟨StrLE_antisymm⟩ _ _
    (((sortStrings_perm xs).trans hp).trans (sortStrings_perm ys).symm)
    (sortStrings_sorted xs) (sortStrings_sorted ys)

/-! ## The sorter's graph as a node list and an edge list -/

theorem rankedFrom_keys (i : Nat) (l : List String) : (rankedFrom i l).map Prod.fst = l := by
  induction l generalizing i with
  | nil => rfl
  | cons x xs ih => simp [rankedFrom, ih]

theorem rankedFrom_length (i : Nat) (l : List String) : (rankedFrom i l).length = l.length := by
  induction l generalizing i with
  | nil => rfl
  | cons x xs ih => simp [rankedFrom, ih]

theorem rankedFrom_append (i : Nat) (l : List String) (v : String) :
    rankedFrom i (l ++ [v]) = rankedFrom i l ++ [(v, i + l.length)] := by
  induction l generalizing i with
  | nil => simp [rankedFrom]
  | cons x xs ih =>
    have h1 : i + 1 + xs.length = i + (xs.length + 1) := by omega
    have h2 := ih (i + 1)
    rw [h1] at h2
    show (x, i) :: rankedFrom (i + 1) (xs ++ [v]) = _
    rw [h2]
    simp [rankedFrom]

theorem outputOrder_fold (suf pre : List String) :
    (rankedFrom (pre.length + 1) suf).foldl
      (fun acc e => acc.bind fun ms =>
        if 1 ≤ e.2 ∧ e.2 - 1 < ms.length then some (ms.set (e.2 - 1) e.1) else none)
      (some (pre ++ List.replicate suf.length "")) = some (pre ++ suf) := by
  induction suf generalizing pre with
  | nil => simp [rankedFrom]
  | cons x xs ih =>
    have hset : (pre ++ List.replicate (xs.length + 1) "").set pre.length x
        = (pre ++ [x]) ++ List.replicate xs.length "" := by
      rw [List.replicate_succ, List.set_append_right _ _ (le_refl _)]
      simp
    have hlen : pre.length < (pre ++ List.replicate (xs.length + 1) "").length := by
      simp
    have hstep := ih (pre ++ [x])
    simp only [List.length_append, List.length_singleton] at hstep
    simp only [rankedFrom, List.foldl_cons, List.length_cons, Option.some_bind,
      Nat.add_sub_cancel]
    rw [if_pos ⟨by omega, hlen⟩, hset, hstep]
    simp

theorem outputOrder_rankedFrom (l : List String) : outputOrder (rankedFrom 1 l) = some l := by
  have h := outputOrder_fold l []
  simpa [outputOrder, rankedFrom_length] using h

theorem mem_succs (E : List (String × String)) (u v : String) : v ∈ succs E u ↔ (u, v) ∈ E := by
  unfold succs
  simp only [List.mem_map, List.mem_filter, decide_eq_true_eq]
  constructor
  · rintro ⟨⟨a, b⟩, ⟨hmem, rfl⟩, rfl⟩
    exact hmem
  · intro hmem
    exact ⟨(u, v), ⟨hmem, rfl⟩, rfl⟩

theorem succs_nodup (E : List (String × String)) (u : String) (hnd : E.Nodup) :
    (succs E u).Nodup := by
  unfold succs
  apply List.Nodup.map_on
  · intro x hx y hy hxy
    simp only [List.mem_filter, decide_eq_true_eq] at hx hy
    exact Prod.ext (hx.2.trans hy.2.symm) hxy
  · exact hnd.filter _

theorem succs_append (E : List (String × String)) (u v w : String) :
    succs (E ++ [(u, v)]) w = if w = u then succs E w ++ [v] else succs E w := by
  unfold succs
  by_cases hw : w = u
  · simp [hw, List.filter_append, List.filter_cons]
  · have hw2 : ¬ u = w := fun h => hw h.symm
    simp [hw, hw2, List.filter_append, List.filter_cons]

theorem inDeg_append (E : List (String × String)) (u v w : String) :
    inDeg (E ++ [(u, v)]) w = inDeg E w + if w = v then 1 else 0 := by
  unfold inDeg
  by_cases hw : w = v
  · simp [hw, List.filter_append, List.filter_cons]
  · have hw2 : ¬ v = w := fun h => hw h.symm
    simp [hw, hw2, List.filter_append, List.filter_cons]

theorem Graph.input_mapSet (g : Graph) (k v : String) (x : Int) :
    (mapGet (mapSet g.inputs k x) v).getD 0 = if v = k then x else g.input v := by
  by_cases hv : v = k
  · subst hv
    simp [mapGet_mapSet_self]
  · simp [mapGet_mapSet_ne _ _ _ _ hv, hv, Graph.input]

theorem graphRep_new (cap : Nat) : GraphRep [] [] (NewGraph cap) := by
  refine ⟨rfl, ?_, ?_, ?_⟩
  · intro u; simp [NewGraph, mapGet]
  · simp [NewGraph]
  · intro v; simp [NewGraph, Graph.input, mapGet, inDeg]

theorem graphRep_addNode (nodes : List String) (g : Graph) (name : String)
    (hrep : GraphRep nodes [] g) (hnew : name ∉ nodes) :
    GraphRep (nodes ++ [name]) [] (g.AddNode name).1 := by
  have hout : mapGet g.outputs name = none := by
    rw [hrep.outputs_eq, if_neg hnew]
  have hin0 : ∀ v, g.input v = 0 := fun v => by simpa [inDeg] using hrep.input_eq v
  unfold Graph.AddNode
  simp only [hout]
  refine ⟨by simp [hrep.nodes_eq], ?_, ?_, ?_⟩
  · intro u
    by_cases hu : u = name
    · subst hu
      simp [mapGet_mapSet_self, succs, rankedFrom]
    · simp only [mapGet_mapSet_ne _ _ _ _ hu, hrep.outputs_eq, List.mem_append,
        List.mem_singleton, hu, or_false]
  · exact mapSet_keys_nodup _ _ _ hrep.inputs_nodup
  · intro v
    show (mapGet (mapSet g.inputs name 0) v).getD 0 = _
    rw [Graph.input_mapSet]
    split
    · simp [inDeg]
    · simpa [inDeg] using hin0 v

theorem graphRep_addNodes (l : List String) (pre : List String) (g : Graph)
    (hrep : GraphRep pre [] g) (hnd : (pre ++ l).Nodup) :
    GraphRep (pre ++ l) [] (l.foldl (fun g table => (g.AddNode table).1) g) := by
  induction l generalizing pre g with
  | nil => simpa using hrep
  | cons x xs ih =>
    have hx : x ∉ pre := by
      intro hmem
      have := List.nodup_append.mp hnd
      exact this.2.2 hmem (List.mem_cons_self x xs)
    have hstep := graphRep_addNode pre g x hrep hx
    have hnd2 : ((pre ++ [x]) ++ xs).Nodup := by simpa using hnd
    have := ih (pre ++ [x]) _ hstep hnd2
    simpa using this

theorem graphRep_addEdge (nodes : List String) (E : List (String × String)) (g : Graph)
    (u v : String) (hrep : GraphRep nodes E g) (hu : u ∈ nodes) (hnew : (u, v) ∉ E) :
    GraphRep nodes (E ++ [(u, v)]) (g.AddEdge u v).1 := by
  have hout : mapGet g.outputs u = some (rankedFrom 1 (succs E u)) := by
    rw [hrep.outputs_eq, if_pos hu]
  unfold Graph.AddEdge
  simp only [hout]
  refine ⟨hrep.nodes_eq, ?_, ?_, ?_⟩
  · intro w
    by_cases hw : w = u
    · subst hw
      have hv : v ∉ (rankedFrom 1 (succs E w)).map Prod.fst := by
        rw [rankedFrom_keys, mem_succs]
        exact hnew
      simp only [mapGet_mapSet_self, if_pos hu, succs_append, if_true, rankedFrom_append,
        mapSet_of_not_mem _ _ _ hv, rankedFrom_length]
      simp [Nat.add_comm]
    · simp only [mapGet_mapSet_ne _ _ _ _ hw, hrep.outputs_eq, succs_append, if_neg hw]
  · exact mapSet_keys_nodup _ _ _ hrep.inputs_nodup
  · intro w
    show (mapGet (mapSet g.inputs v (g.input v + 1)) w).getD 0 = _
    rw [Graph.input_mapSet, inDeg_append]
    by_cases hw : w = v
    · subst hw
      simp [hrep.input_eq]
    · simp [hw, hrep.input_eq]

theorem graphRep_addEdges (nodes : List String) (l E : List (String × String)) (g : Graph)
    (hrep : GraphRep nodes E g) (hnd : (E ++ l).Nodup) (hsrc : ∀ e ∈ l, e.1 ∈ nodes) :
    GraphRep nodes (E ++ l) (l.foldl (fun g e => (g.AddEdge e.1 e.2).1) g) := by
  induction l generalizing E g with
  | nil => simpa using hrep
  | cons e es ih =>
    have he : (e.1, e.2) ∉ E := by
      intro hmem
      have := List.nodup_append.mp hnd
      exact this.2.2 hmem (List.mem_cons_self e es)
    have hstep := graphRep_addEdge nodes E g e.1 e.2 hrep (hsrc e (List.mem_cons_self e es)) he
    have hnd2 : ((E ++ [e]) ++ es).Nodup := by simpa using hnd
    have := ih (E ++ [(e.1, e.2)]) _ hstep (by simpa using hnd2)
      (fun x hx => hsrc x (List.mem_cons_of_mem _ hx))
    simpa using this

/-! ## One iteration of the sorter's loop -/

theorem mem_mapDelete {V : Type} (m : List (String × V)) (k : String) (e : String × V)
    (he : e ∈ mapDelete m k) : e ∈ m ∧ e.1 ≠ k := by
  induction m with
  | nil => simp [mapDelete] at he
  | cons x rest ih =>
    obtain ⟨k1, v1⟩ := x
    by_cases hk : k1 = k
    · simp only [mapDelete, hk, if_true] at he
      exact ⟨List.mem_cons_of_mem _ (ih he).1, (ih he).2⟩
    · simp only [mapDelete, hk, if_false, List.mem_cons] at he
      rcases he with rfl | hin
      · exact ⟨List.mem_cons_self _ _, hk⟩
      · exact ⟨List.mem_cons_of_mem _ (ih hin).1, (ih hin).2⟩

theorem foldl_mapDelete_nil {V : Type} (ms : List String) (m : List (String × V))
    (hall : ∀ e ∈ m, e.1 ∈ ms) : ms.foldl mapDelete m = [] := by
  induction ms generalizing m with
  | nil =>
    simp only [List.foldl_nil]
    apply List.eq_nil_iff_forall_not_mem.mpr
    intro e he
    simpa using hall e he
  | cons k ks ih =>
    simp only [List.foldl_cons]
    apply ih
    intro e he
    have := mem_mapDelete m k e he
    rcases List.mem_cons.mp (hall e this.1) with h | h
    · exact absurd h this.2
    · exact h

theorem unsafeRemoveEdge_outputs_ne (g : Graph) (n m u : String) (hu : u ≠ n) :
    mapGet (g.unsafeRemoveEdge n m).outputs u = mapGet g.outputs u := by
  unfold Graph.unsafeRemoveEdge
  cases hget : mapGet g.outputs n with
  | none => rfl
  | some mp => simp [mapGet_mapSet_ne _ _ _ _ hu]

theorem unsafeRemoveEdge_outputs_self (g : Graph) (n m : String) :
    mapGet (g.unsafeRemoveEdge n m).outputs n
      = (mapGet g.outputs n).map fun mp => mapDelete mp m := by
  unfold Graph.unsafeRemoveEdge
  cases hget : mapGet g.outputs n with
  | none => simp [hget]
  | some mp => simp [mapGet_mapSet_self]

theorem unsafeRemoveEdge_input (g : Graph) (n m v : String) :
    (g.unsafeRemoveEdge n m).input v = if v = m then g.input m - 1 else g.input v := by
  show (mapGet (mapSet g.inputs m (g.input m - 1)) v).getD 0 = _
  rw [Graph.input_mapSet]

theorem releaseOutputs_spec (n : String) (ms : List String) (g : Graph) (S : List String)
    (hnd : ms.Nodup) (hin : (g.inputs.map Prod.fst).Nodup) :
    (Graph.releaseOutputs n ms g S).1.nodes = g.nodes ∧
    (∀ u, u ≠ n → mapGet (Graph.releaseOutputs n ms g S).1.outputs u = mapGet g.outputs u) ∧
    mapGet (Graph.releaseOutputs n ms g S).1.outputs n
      = (mapGet g.outputs n).map (fun mp => ms.foldl mapDelete mp) ∧
    (∀ v, (Graph.releaseOutputs n ms g S).1.input v = g.input v - if v ∈ ms then 1 else 0) ∧
    ((Graph.releaseOutputs n ms g S).1.inputs.map Prod.fst).Nodup ∧
    (Graph.releaseOutputs n ms g S).2 = S ++ ms.filter (fun m => decide (g.input m = 1)) := by
  induction ms generalizing g S with
  | nil =>
    refine ⟨rfl, fun _ _ => rfl, ?_, ?_, hin, ?_⟩
    · simp only [Graph.releaseOutputs, List.foldl_nil]
      cases mapGet g.outputs n <;> rfl
    · intro v
      simp [Graph.releaseOutputs]
    · simp [Graph.releaseOutputs]
  | cons m rest ih =>
    have hm : m ∉ rest := (List.nodup_cons.mp hnd).1
    have hin1 : ((g.unsafeRemoveEdge n m).inputs.map Prod.fst).Nodup :=
      mapSet_keys_nodup _ _ _ hin
    obtain ⟨h1, h2, h3, h4, h5, h6⟩ := ih (g.unsafeRemoveEdge n m)
      (if (g.unsafeRemoveEdge n m).input m = 0 then S ++ [m] else S)
      (List.nodup_cons.mp hnd).2 hin1
    simp only [Graph.releaseOutputs]
    refine ⟨by rw [h1]; rfl, ?_, ?_, ?_, h5, ?_⟩
    · intro u hu
      rw [h2 u hu, unsafeRemoveEdge_outputs_ne g n m u hu]
    · rw [h3, unsafeRemoveEdge_outputs_self]
      cases mapGet g.outputs n <;> simp
    · intro v
      rw [h4, unsafeRemoveEdge_input]
      by_cases hv : v = m
      · subst hv
        simp [hm]
      · by_cases hv2 : v ∈ rest
        · simp [hv, hv2]
        · simp [hv, hv2]
    · rw [h6]
      have hfil : rest.filter (fun x => decide ((g.unsafeRemoveEdge n m).input x = 1))
          = rest.filter (fun x => decide (g.input x = 1)) := by
        apply List.filter_congr
        intro x hx
        have hxm : x ≠ m := fun h => hm (h ▸ hx)
        rw [unsafeRemoveEdge_input, if_neg hxm]
      rw [hfil, unsafeRemoveEdge_input, if_pos rfl, List.filter_cons]
      by_cases h1 : g.input m = 1
      · simp [h1]
      · have h0 : ¬ (g.input m - 1 = 0) := by omega
        simp [h1, h0]

theorem succs_filter_ne (R : List (String × String)) (n u : String) (hu : u ≠ n) :
    succs (R.filter fun e => decide (e.1 ≠ n)) u = succs R u := by
  unfold succs
  rw [List.filter_filter]
  congr 1
  apply List.filter_congr
  intro e _
  by_cases he : e.1 = u
  · have : e.1 ≠ n := he ▸ hu
    simp [he, hu]
  · simp [he]

theorem succs_filter_self (R : List (String × String)) (n : String) :
    succs (R.filter fun e => decide (e.1 ≠ n)) n = [] := by
  unfold succs
  rw [List.filter_filter]
  simp

theorem inDeg_filter (R : List (String × String)) (n v : String) (hnd : R.Nodup) :
    inDeg R v = inDeg (R.filter fun e => decide (e.1 ≠ n)) v + if v ∈ succs R n then 1 else 0 := by
  induction R with
  | nil => simp [inDeg, succs]
  | cons e rest ih =>
    obtain ⟨a, b⟩ := e
    have hnd2 := List.nodup_cons.mp hnd
    have ih2 := ih hnd2.2
    simp only [mem_succs] at ih2 ⊢
    unfold inDeg at ih2 ⊢
    simp only [ne_eq] at ih2 ⊢
    by_cases hb : b = v
    · subst hb
      by_cases ha : a = n
      · subst ha
        have hnot : (a, b) ∉ rest := hnd2.1
        simp only [hnot, if_false, add_zero] at ih2
        simp [List.filter_cons, ih2]
      · have hne : ¬ (n, b) = (a, b) := fun h => ha (by cases h; rfl)
        simp only [List.filter_cons, ha, List.mem_cons, hne, false_or, decide_True, decide_False,
          not_false_eq_true, if_true, List.length_cons, Bool.not_false]
        omega
    · have hne : ¬ (n, v) = (a, b) := fun h => hb (by cases h; rfl)
      by_cases ha : a = n
      · subst ha
        simp only [List.filter_cons, hb, List.mem_cons, hne, false_or, decide_True,
          decide_False, not_true_eq_false, if_false, Bool.false_eq_true]
        exact ih2
      · simp only [List.filter_cons, hb, ha, List.mem_cons, hne, false_or, decide_True,
          decide_False, not_false_eq_true, if_true, if_false, Bool.false_eq_true]
        exact ih2

theorem graphRep_release (nodes : List String) (R : List (String × String)) (g : Graph)
    (n : String) (S : List String) (hrep : GraphRep nodes R g) (hn : n ∈ nodes)
    (hnd : R.Nodup) :
    outputOrder ((mapGet g.outputs n).getD []) = some (succs R n) ∧
    GraphRep nodes (R.filter fun e => decide (e.1 ≠ n))
      (Graph.releaseOutputs n (succs R n) g S).1 ∧
    (Graph.releaseOutputs n (succs R n) g S).2
      = S ++ (succs R n).filter (fun m => decide (inDeg R m = 1)) := by
  have hout : mapGet g.outputs n = some (rankedFrom 1 (succs R n)) := by
    rw [hrep.outputs_eq, if_pos hn]
  obtain ⟨h1, h2, h3, h4, h5, h6⟩ :=
    releaseOutputs_spec n (succs R n) g S (succs_nodup R n hnd) hrep.inputs_nodup
  refine ⟨by rw [hout]; exact outputOrder_rankedFrom _, ⟨by rw [h1, hrep.nodes_eq], ?_, h5, ?_⟩, ?_⟩
  · intro u
    by_cases hu : u = n
    · subst hu
      rw [h3, hout, if_pos hn, succs_filter_self]
      simp only [Option.map_some', rankedFrom]
      congr 1
      apply foldl_mapDelete_nil
      intro e he
      have : e.1 ∈ (rankedFrom 1 (succs R u)).map Prod.fst := List.mem_map_of_mem _ he
      rwa [rankedFrom_keys] at this
    · rw [h2 u hu, hrep.outputs_eq, succs_filter_ne R n u hu]
  · intro v
    rw [h4, hrep.input_eq, inDeg_filter R n v hnd]
    split <;> simp
  · rw [h6]
    congr 1
    apply List.filter_congr
    intro x _
    rw [hrep.input_eq]
    simp

/-! ## Kahn's algorithm -/

theorem inDeg_eq_zero_iff (R : List (String × String)) (v : String) :
    inDeg R v = 0 ↔ ∀ e ∈ R, e.2 ≠ v := by
  unfold inDeg
  rw [List.length_eq_zero, List.filter_eq_nil_iff]
  simp

theorem mem_remaining (E : List (String × String)) (L : List String) (e : String × String) :
    e ∈ remaining E L ↔ e ∈ E ∧ e.1 ∉ L := by
  simp [remaining, List.mem_filter]

theorem remaining_nil (E : List (String × String)) : remaining E [] = E := by
  simp [remaining]

theorem remaining_nodup (E : List (String × String)) (L : List String) (hnd : E.Nodup) :
    (remaining E L).Nodup := hnd.filter _

theorem remaining_snoc (E : List (String × String)) (L : List String) (n : String) :
    remaining E (L ++ [n]) = (remaining E L).filter fun e => decide (e.1 ≠ n) := by
  unfold remaining
  rw [List.filter_filter]
  apply List.filter_congr
  intro e _
  by_cases h1 : e.1 ∈ L <;> by_cases h2 : e.1 = n <;> simp [h1, h2]

theorem kahnInv_init (nodes : List String) (E : List (String × String)) (hn : nodes.Nodup) :
    KahnInv nodes E (nodes.filter fun n => decide (inDeg E n = 0)) [] := by
  refine ⟨by simpa using hn.filter _, ?_, ?_, ?_⟩
  · intro x hx
    simp only [List.nil_append, List.mem_filter] at hx
    exact hx.1
  · intro v hv
    simp [remaining_nil, List.mem_filter, hv]
  · intro e _ he
    simp at he

theorem kahnInv_step (nodes : List String) (E : List (String × String)) (n : String)
    (S L : List String) (hE : E.Nodup) (hends : ∀ e ∈ E, e.1 ∈ nodes ∧ e.2 ∈ nodes)
    (hinv : KahnInv nodes E (n :: S) L) :
    KahnInv nodes E
      (S ++ (succs (remaining E L) n).filter (fun m => decide (inDeg (remaining E L) m = 1)))
      (L ++ [n]) := by
  have hR := remaining_nodup E L hE
  have hnL : n ∉ L := by
    intro hmem
    have := List.nodup_append.mp hinv.nodup
    exact this.2.2 hmem (List.mem_cons_self n S)
  have hnS : n ∉ S := by
    have := (List.nodup_append.mp hinv.nodup).2.1
    exact (List.nodup_cons.mp this).1
  have hdeg : ∀ v, inDeg (remaining E L) v
      = inDeg (remaining E (L ++ [n])) v + if v ∈ succs (remaining E L) n then 1 else 0 := by
    intro v
    rw [remaining_snoc]
    exact inDeg_filter _ n v hR
  have hnewnodes : ∀ m ∈ succs (remaining E L) n, m ∈ nodes := by
    intro m hm
    rw [mem_succs, mem_remaining] at hm
    exact (hends _ hm.1).2
  have hnewfresh : ∀ m, inDeg (remaining E L) m = 1 → m ∈ nodes → m ∉ L ++ n :: S := by
    intro m hm hmn hmem
    have := (hinv.ready m hmn).mp hmem
    omega
  refine ⟨?_, ?_, ?_, ?_⟩
  · have hold : (L ++ n :: S).Nodup := hinv.nodup
    have hnew : ((succs (remaining E L) n).filter
        (fun m => decide (inDeg (remaining E L) m = 1))).Nodup :=
      (succs_nodup _ n hR).filter _
    have hperm : (L ++ [n] ++ (S ++ (succs (remaining E L) n).filter
        (fun m => decide (inDeg (remaining E L) m = 1)))) = (L ++ n :: S) ++
        (succs (remaining E L) n).filter (fun m => decide (inDeg (remaining E L) m = 1)) := by
      simp
    rw [hperm]
    refine List.Nodup.append hold hnew ?_
    intro x hx1 hx2
    simp only [List.mem_filter, decide_eq_true_eq] at hx2
    exact hnewfresh x hx2.2 (hnewnodes x hx2.1) hx1
  · intro x hx
    simp only [List.mem_append, List.mem_singleton, List.mem_filter, decide_eq_true_eq] at hx
    rcases hx with (hx | hx) | hx | hx
    · exact hinv.sub x (List.mem_append_left _ hx)
    · exact hinv.sub x (by simp [hx])
    · exact hinv.sub x (by simp [hx])
    · exact hnewnodes x hx.1
  · intro v hv
    have hready := hinv.ready v hv
    have hd := hdeg v
    constructor
    · intro hmem
      simp only [List.mem_append, List.mem_singleton, List.mem_filter, decide_eq_true_eq] at hmem
      have hcase : v ∈ L ++ n :: S ∨
          (v ∈ succs (remaining E L) n ∧ inDeg (remaining E L) v = 1) := by
        rcases hmem with (hx | hx) | hx | hx
        · left; simp [hx]
        · left; simp [hx]
        · left; simp [hx]
        · right; exact hx
      rcases hcase with hold | ⟨hs, h1⟩
      · have := hready.mp hold
        omega
      · rw [if_pos hs] at hd
        omega
    · intro hzero
      by_cases hs : v ∈ succs (remaining E L) n
      · rw [if_pos hs] at hd
        have h1 : inDeg (remaining E L) v = 1 := by omega
        simp [List.mem_filter, hs, h1]
      · rw [if_neg hs] at hd
        have hold := hready.mpr (by omega)
        simp only [List.mem_append, List.mem_cons] at hold
        simp only [List.mem_append, List.mem_singleton, List.mem_filter, decide_eq_true_eq]
        tauto
  · intro e he hmem
    rcases List.mem_append.mp hmem with h2 | h2
    · have hlt := hinv.order e he h2
      have h1 : e.1 ∈ L := by
        apply List.indexOf_lt_length.mp
        exact lt_trans hlt (List.indexOf_lt_length.mpr h2)
      rw [List.indexOf_append_of_mem h1, List.indexOf_append_of_mem h2]
      exact hlt
    · have h2n : e.2 = n := by simpa using h2
      have hzero := (hinv.ready n (hinv.sub n (by simp))).mp (by simp)
      rw [inDeg_eq_zero_iff] at hzero
      have h1 : e.1 ∈ L := by
        by_contra hcon
        exact hzero e ((mem_remaining E L e).mpr ⟨he, hcon⟩) h2n
      rw [List.indexOf_append_of_mem h1, h2n, List.indexOf_append_of_not_mem hnL]
      have := List.indexOf_lt_length.mpr h1
      simp
      omega

theorem kahn_length_bound (nodes : List String) (E : List (String × String))
    (S L : List String) (hinv : KahnInv nodes E S L) : L.length + S.length ≤ nodes.length := by
  have := (List.subperm_of_subset hinv.nodup hinv.sub).length_le
  simpa using this

/-- The loop of `Toposort` runs to its end within the step bound, keeping the graph in step
with the edges that remain and satisfying the invariant of Kahn's algorithm. -/
theorem toposortLoop_fuel (nodes : List String) (E : List (String × String))
    (hE : E.Nodup) (hends : ∀ e ∈ E, e.1 ∈ nodes ∧ e.2 ∈ nodes)
    (fuel : Nat) (g : Graph) (S L : List String)
    (hrep : GraphRep nodes (remaining E L) g) (hinv : KahnInv nodes E S L)
    (hfuel : nodes.length ≤ fuel + L.length) :
    ∃ g1 L1, Graph.toposortLoop fuel g S L = .ok (g1, L1) ∧
      GraphRep nodes (remaining E L1) g1 ∧ KahnInv nodes E [] L1 := by
  induction fuel generalizing g S L with
  | zero =>
    cases S with
    | nil => exact ⟨g, L, by simp [Graph.toposortLoop], hrep, hinv⟩
    | cons n S =>
      have := kahn_length_bound nodes E (n :: S) L hinv
      simp at this hfuel
      omega
  | succ fuel ih =>
    cases S with
    | nil => exact ⟨g, L, by simp [Graph.toposortLoop], hrep, hinv⟩
    | cons n S =>
      have hn : n ∈ nodes := hinv.sub n (by simp)
      obtain ⟨h1, h2, h3⟩ :=
        graphRep_release nodes (remaining E L) g n S hrep hn (remaining_nodup E L hE)
      have hstep := kahnInv_step nodes E n S L hE hends hinv
      rw [← remaining_snoc] at h2
      rw [← h3] at hstep
      obtain ⟨g1, L1, hrun, hrep1, hinv1⟩ :=
        ih _ _ (L ++ [n]) h2 hstep (by simp; omega)
      refine ⟨g1, L1, ?_, hrep1, hinv1⟩
      simp only [Graph.toposortLoop, h1]
      exact hrun

/-! ## What `Toposort` returns -/

theorem sum_pos_iff (l : List (String × Int)) (hnn : ∀ e ∈ l, 0 ≤ e.2) :
    (l.map Prod.snd).sum > 0 ↔ ∃ e ∈ l, e.2 ≠ 0 := by
  induction l with
  | nil => simp
  | cons x rest ih =>
    have hx : 0 ≤ x.2 := hnn x (List.mem_cons_self _ _)
    have hrest : ∀ e ∈ rest, 0 ≤ e.2 := fun e he => hnn e (List.mem_cons_of_mem _ he)
    have hsum : 0 ≤ (rest.map Prod.snd).sum :=
      List.sum_nonneg (by
        intro y hy
        obtain ⟨e, he, rfl⟩ := List.mem_map.mp hy
        exact hrest e he)
    have ih2 := ih hrest
    simp only [List.map_cons, List.sum_cons, List.mem_cons, exists_eq_or_imp]
    constructor
    · intro hpos
      by_cases h0 : x.2 = 0
      · right
        apply ih2.mp
        omega
      · left; exact h0
    · rintro (h | h)
      · omega
      · have := ih2.mpr h
        omega

theorem inputs_sum_pos_iff (nodes : List String) (E : List (String × String)) (g : Graph)
    (L : List String) (hends : ∀ e ∈ E, e.1 ∈ nodes ∧ e.2 ∈ nodes)
    (hrep : GraphRep nodes (remaining E L) g) (hinv : KahnInv nodes E [] L) :
    (g.inputs.map Prod.snd).sum > 0 ↔ ¬ ∀ v ∈ nodes, v ∈ L := by
  have hentry : ∀ e ∈ g.inputs, e.2 = (inDeg (remaining E L) e.1 : Int) := by
    intro e he
    have hget := mapGet_of_mem g.inputs e.1 e.2 hrep.inputs_nodup he
    have := hrep.input_eq e.1
    simpa [Graph.input, hget] using this
  rw [sum_pos_iff g.inputs (fun e he => by rw [hentry e he]; exact Int.natCast_nonneg _)]
  constructor
  · rintro ⟨e, he, hne⟩ hall
    rw [hentry e he] at hne
    have hne2 : inDeg (remaining E L) e.1 ≠ 0 := by
      intro h0
      apply hne
      rw [h0]
      rfl
    rw [Ne, inDeg_eq_zero_iff] at hne2
    push_neg at hne2
    obtain ⟨d, hd, _⟩ := hne2
    rw [mem_remaining] at hd
    exact hd.2 (hall d.1 (hends d hd.1).1)
  · intro hnot
    push_neg at hnot
    obtain ⟨v, hv, hvL⟩ := hnot
    have hdeg : inDeg (remaining E L) v ≠ 0 := by
      intro h0
      exact hvL (by simpa using (hinv.ready v hv).mpr h0)
    have hin : g.input v ≠ 0 := by
      rw [hrep.input_eq]
      exact_mod_cast hdeg
    cases hget : mapGet g.inputs v with
    | none => simp [Graph.input, hget] at hin
    | some x =>
      refine ⟨(v, x), mem_of_mapGet _ _ _ hget, ?_⟩
      simpa [Graph.input, hget] using hin

/-- On a graph holding distinct nodes and distinct edges between them, `Toposort` returns;
its flag tells whether every node was output, and the output satisfies the invariant of
Kahn's algorithm. -/
theorem toposort_spec (nodes : List String) (E : List (String × String)) (g : Graph)
    (hn : nodes.Nodup) (hE : E.Nodup) (hends : ∀ e ∈ E, e.1 ∈ nodes ∧ e.2 ∈ nodes)
    (hrep : GraphRep nodes E g) :
    ∃ L, g.Toposort = .ok (L, decide (∀ v ∈ nodes, v ∈ L)) ∧ KahnInv nodes E [] L := by
  have hS : (g.nodes.filter fun n => decide (g.input n = 0))
      = nodes.filter fun n => decide (inDeg E n = 0) := by
    rw [hrep.nodes_eq]
    apply List.filter_congr
    intro x _
    rw [hrep.input_eq]
    simp
  obtain ⟨g1, L1, hrun, hrep1, hinv1⟩ :=
    toposortLoop_fuel nodes E hE hends (g.nodes.length + g.edgeCount) g
      (nodes.filter fun n => decide (inDeg E n = 0)) []
      (by rw [remaining_nil]; exact hrep) (kahnInv_init nodes E hn)
      (by rw [hrep.nodes_eq]; simp)
  refine ⟨L1, ?_, hinv1⟩
  unfold Graph.Toposort
  simp only [hS, hrun]
  have hiff := inputs_sum_pos_iff nodes E g1 L1 hends hrep1 hinv1
  congr 2
  by_cases hall : ∀ v ∈ nodes, v ∈ L1
  · have : ¬ (g1.inputs.map Prod.snd).sum > 0 := fun h => (hiff.mp h) hall
    rw [decide_eq_false this, decide_eq_true hall]
    rfl
  · have : (g1.inputs.map Prod.snd).sum > 0 := hiff.mpr hall
    rw [decide_eq_true this, decide_eq_false hall]
    rfl

theorem kahn_perm (nodes : List String) (E : List (String × String)) (L : List String)
    (hn : nodes.Nodup) (hinv : KahnInv nodes E [] L) (hall : ∀ v ∈ nodes, v ∈ L) :
    L.Perm nodes := by
  have hL : L.Nodup := by simpa using hinv.nodup
  exact (List.perm_ext_iff_of_nodup hL hn).mpr
    (fun a => ⟨fun h => hinv.sub a (by simpa using h), hall a⟩)

theorem kahn_order (nodes : List String) (E : List (String × String)) (L : List String)
    (hends : ∀ e ∈ E, e.1 ∈ nodes ∧ e.2 ∈ nodes) (hinv : KahnInv nodes E [] L)
    (hall : ∀ v ∈ nodes, v ∈ L) :
    ∀ e ∈ E, List.indexOf e.1 L < List.indexOf e.2 L :=
  fun e he => hinv.order e he (hall e.2 (hends e he).2)

/-- A sequence in which every edge points forward rules out a cycle. -/
theorem no_cycle_of_order (E : List (String × String)) (L : List String)
    (hord : ∀ e ∈ E, List.indexOf e.1 L < List.indexOf e.2 L) (x : String) :
    ¬ Relation.TransGen (fun u v => (u, v) ∈ E) x x := by
  have hlt : ∀ a b, Relation.TransGen (fun u v => (u, v) ∈ E) a b →
      List.indexOf a L < List.indexOf b L := by
    intro a b hab
    induction hab with
    | single h => exact hord _ h
    | tail _ h ih => exact lt_trans ih (hord _ h)
  intro hx
  exact lt_irrefl _ (hlt x x hx)

/-- Without a cycle, Kahn's algorithm outputs every node. -/
theorem kahn_complete (nodes : List String) (E : List (String × String)) (L : List String)
    (hends : ∀ e ∈ E, e.1 ∈ nodes ∧ e.2 ∈ nodes) (hinv : KahnInv nodes E [] L)
    (hac : ∀ x, ¬ Relation.TransGen (fun u v => (u, v) ∈ E) x x) :
    ∀ v ∈ nodes, v ∈ L := by
  let r : {x // x ∈ nodes} → {x // x ∈ nodes} → Prop :=
    fun a b => Relation.TransGen (fun u v => (u, v) ∈ E) a.1 b.1
  have htrans : IsTrans {x // x ∈ nodes} r := ⟨fun a b c hab hbc => Relation.TransGen.trans hab hbc⟩
  have hirr : IsIrrefl {x // x ∈ nodes} r := ⟨fun a => hac a.1⟩
  have hwf : WellFounded r := Finite.wellFounded_of_trans_of_irrefl r
  have key : ∀ a : {x // x ∈ nodes}, a.1 ∈ L := by
    intro a
    induction a using hwf.induction with
    | _ a ih =>
      by_contra hnot
      have hdeg : inDeg (remaining E L) a.1 ≠ 0 := by
        intro h0
        exact hnot (by simpa using (hinv.ready a.1 a.2).mpr h0)
      rw [Ne, inDeg_eq_zero_iff] at hdeg
      push_neg at hdeg
      obtain ⟨d, hd, hd2⟩ := hdeg
      rw [mem_remaining] at hd
      have hmem : d.1 ∈ nodes := (hends d hd.1).1
      have hedge : (d.1, a.1) ∈ E := by
        rw [← hd2]
        exact hd.1
      exact hd.2 (ih ⟨d.1, hmem⟩ (Relation.TransGen.single hedge))
  exact fun v hv => key ⟨v, hv⟩

/-- Without edges, the output is the node list itself. -/
theorem toposortLoop_no_edges (nodes : List String) (fuel : Nat) (g : Graph) (S L : List String)
    (hrep : GraphRep nodes [] g) (hS : ∀ x ∈ S, x ∈ nodes) (hfuel : S.length ≤ fuel) :
    ∃ g1, Graph.toposortLoop fuel g S L = .ok (g1, L ++ S) := by
  induction fuel generalizing g S L with
  | zero =>
    cases S with
    | nil => exact ⟨g, by simp [Graph.toposortLoop]⟩
    | cons n S => simp at hfuel
  | succ fuel ih =>
    cases S with
    | nil => exact ⟨g, by simp [Graph.toposortLoop]⟩
    | cons n S =>
      obtain ⟨h1, h2, h3⟩ := graphRep_release nodes [] g n S hrep
        (hS n (List.mem_cons_self _ _)) List.nodup_nil
      have hs : succs [] n = [] := rfl
      rw [hs] at h1 h2 h3
      simp only [List.filter_nil, List.append_nil] at h2 h3
      obtain ⟨g1, hrun⟩ := ih (Graph.releaseOutputs n [] g S).1 S (L ++ [n]) h2
        (fun x hx => hS x (List.mem_cons_of_mem _ hx)) (by simpa using hfuel)
      refine ⟨g1, ?_⟩
      simp only [Graph.toposortLoop, h1, h3]
      simpa using hrun

/-! ## The registry invariant -/

theorem deref_append_lt (h l : Heap) (p : Ptr) (hp : p < h.length) :
    deref (h ++ l) p = deref h p := by
  unfold deref
  rw [List.getD_eq_getElem?_getD, List.getD_eq_getElem?_getD, List.getElem?_append_left hp]

theorem deref_append_length (h : Heap) (t : MainTable) : deref (h ++ [t]) h.length = t := by
  unfold deref
  rw [List.getD_eq_getElem?_getD]
  simp

theorem deref_set_self (h : Heap) (p : Ptr) (t : MainTable) (hp : p < h.length) :
    deref (h.set p t) p = t := by
  unfold deref
  rw [List.getD_eq_getElem?_getD]
  simp [hp]

theorem deref_set_ne (h : Heap) (p q : Ptr) (t : MainTable) (hq : q ≠ p) :
    deref (h.set p t) q = deref h q := by
  unfold deref
  rw [List.getD_eq_getElem?_getD, List.getD_eq_getElem?_getD, List.getElem?_set_ne (Ne.symm hq)]

theorem inv_empty : Inv [] emptySchema := by
  refine ⟨by simp [emptySchema], ?_, ?_⟩
  · intro e he
    simp [emptySchema] at he
  · intro _
    simp [emptySchema]

theorem inv_getTable (h : Heap) (s : Schema) (typ : ReflectType) (hinv : Inv h s) :
    Inv (Schema.getTable h s typ).2.1 (Schema.getTable h s typ).2.2 := by
  unfold Schema.getTable
  cases hget : mapGet s.Tables typ.Name with
  | some p => simpa [hget] using hinv
  | none =>
    have hnew : typ.Name ∉ s.Tables.map Prod.fst := (mapGet_eq_none_iff _ _).mp hget
    simp only [hget]
    refine ⟨mapSet_keys_nodup _ _ _ hinv.1, ?_, ?_⟩
    · intro e he
      rw [mapSet_of_not_mem _ _ _ hnew] at he
      rcases List.mem_append.mp he with hold | hnw
      · have := hinv.2.1 e hold
        refine ⟨by rw [List.length_append]; exact Nat.lt_add_right _ this.1, ?_⟩
        rw [deref_append_lt _ _ _ this.1]
        exact this.2
      · have he2 : e = (typ.Name, h.length) := by simpa using hnw
        subst he2
        refine ⟨by simp, ?_⟩
        show (deref (h ++ [NewMainTable typ]) h.length).Name = typ.Name
        rw [deref_append_length]
        rfl
    · intro hflag
      simp at hflag

theorem inv_populate (h : Heap) (s : Schema) (p : Ptr) (t : MainTable) (hinv : Inv h s)
    (hname : t.Name = (deref h p).Name) (hp : p < h.length) : Inv (h.set p t) s := by
  refine ⟨hinv.1, ?_, hinv.2.2⟩
  intro e he
  have := hinv.2.1 e he
  refine ⟨by simpa using this.1, ?_⟩
  by_cases hq : e.2 = p
  · rw [hq, deref_set_self _ _ _ hp, hname, ← hq]
    exact this.2
  · rw [deref_set_ne _ _ _ _ hq]
    exact this.2

theorem getSortedTables_frame (o : MapOrder) (h : Heap) (s s1 : Schema) (r : List (Option Ptr))
    (hrun : Schema.getSortedTables o h s = .ok (r, s1)) :
    s1.Tables = s.Tables ∧ s1.graphOutdated = s.graphOutdated ∧ s1.sortedList = r ∧
      (s.graphOutdated = false → s1 = s) := by
  unfold Schema.getSortedTables at hrun
  cases hflag : s.graphOutdated with
  | false =>
    simp only [hflag, Bool.false_eq_true, if_false, Except.ok.injEq, Prod.mk.injEq] at hrun
    obtain ⟨h1, h2⟩ := hrun
    subst h2
    exact ⟨rfl, by simp [hflag], h1, fun _ => rfl⟩
  | true =>
    simp only [hflag, if_true] at hrun
    split at hrun
    · cases hrun
    · split at hrun
      · cases hrun
      · simp only [Except.ok.injEq, Prod.mk.injEq] at hrun
        obtain ⟨h1, h2⟩ := hrun
        subst h2
        exact ⟨rfl, by simp [hflag], h1, fun hc => by simp at hc⟩

theorem inv_getSortedTables (o : MapOrder) (h : Heap) (s s1 : Schema) (r : List (Option Ptr))
    (hinv : Inv h s) (hrun : Schema.getSortedTables o h s = .ok (r, s1)) : Inv h s1 := by
  obtain ⟨h1, h2, _, h4⟩ := getSortedTables_frame o h s s1 r hrun
  cases hflag : s.graphOutdated with
  | false =>
    rw [h4 hflag]
    exact hinv
  | true =>
    refine ⟨by rw [h1]; exact hinv.1, by rw [h1]; exact hinv.2.1, ?_⟩
    intro hc
    rw [h2, hflag] at hc
    simp at hc

theorem reachable_of_built (h : Heap) (s : Schema) (hb : Built h s) : Reachable h s := by
  induction hb with
  | empty => exact Reachable.empty
  | getTable h s typ _ ih => exact Reachable.getTable h s typ ih
  | populate h s p t _ hp hname ih => exact Reachable.populate h s p t ih hp hname

theorem inv_of_reachable (h : Heap) (s : Schema) (hr : Reachable h s) : Inv h s := by
  induction hr with
  | empty => exact inv_empty
  | getTable h s typ _ ih => exact inv_getTable h s typ ih
  | populate h s p t _ hp hname ih => exact inv_populate h s p t ih hname hp
  | getSortedTables o h s r s1 _ _ hrun ih => exact inv_getSortedTables o h s s1 r ih hrun

theorem inv_of_built (h : Heap) (s : Schema) (hb : Built h s) : Inv h s :=
  inv_of_reachable h s (reachable_of_built h s hb)

theorem inv_entry_eq (h : Heap) (s : Schema) (hinv : Inv h s) (e1 e2 : String × Ptr)
    (h1 : e1 ∈ s.Tables) (h2 : e2 ∈ s.Tables) (hp : e1.2 = e2.2) : e1 = e2 := by
  have hn1 := (hinv.2.1 e1 h1).2
  have hn2 := (hinv.2.1 e2 h2).2
  rw [hp, hn2] at hn1
  exact Prod.ext hn1.symm hp

theorem inv_mapGet (h : Heap) (s : Schema) (hinv : Inv h s) (e : String × Ptr)
    (he : e ∈ s.Tables) : mapGet s.Tables e.1 = some e.2 :=
  mapGet_of_mem s.Tables e.1 e.2 hinv.1 he

theorem inv_mapGet_name (h : Heap) (s : Schema) (hinv : Inv h s) (e : String × Ptr)
    (he : e ∈ s.Tables) : mapGet s.Tables (deref h e.2).Name = some e.2 := by
  rw [(hinv.2.1 e he).2]
  exact inv_mapGet h s hinv e he

/-! ## The graph built by `getSortedTables` -/

theorem foldl_ite_filter {α β : Type} (c : α → Bool) (f : β → α → β) (l : List α) (b : β) :
    l.foldl (fun g y => if c y = true then f g y else g) b = (l.filter c).foldl f b := by
  induction l generalizing b with
  | nil => rfl
  | cons x xs ih =>
    by_cases hc : c x = true
    · simp [List.filter_cons, hc, ih]
    · simp [List.filter_cons, hc, ih]

theorem foldl_flatMap_eq {α β γ : Type} (F : α → List β) (f : γ → β → γ) (l : List α) (b : γ) :
    (l.flatMap F).foldl f b = l.foldl (fun g d => (F d).foldl f g) b := by
  induction l generalizing b with
  | nil => rfl
  | cons x xs ih => simp [List.flatMap_cons, List.foldl_append, ih]

theorem addEdges_eq (o : MapOrder) (h : Heap) (tables : List (String × Ptr)) (g : Graph) :
    addEdges o h tables g
      = (edgeList o h tables).foldl (fun g e => (g.AddEdge e.1 e.2).1) g := by
  unfold addEdges edgeList
  rw [foldl_flatMap_eq]
  congr 1
  funext g d
  rw [List.foldl_map]
  rw [← foldl_ite_filter]
  congr 1
  funext g y
  simp [edgeCond]

theorem mem_edgeList (o : MapOrder) (h : Heap) (tables : List (String × Ptr)) (ho : o.Valid)
    (u v : String) :
    (u, v) ∈ edgeList o h tables ↔
      ∃ d ∈ tables, ∃ y ∈ tables, d.2 ≠ y.2 ∧ Depends h d.2 y.2 = true ∧
        u = (deref h y.2).Name ∧ v = (deref h d.2).Name := by
  unfold edgeList edgeCond
  simp only [List.mem_flatMap, List.mem_map, List.mem_filter, decide_eq_true_eq, Prod.mk.injEq]
  constructor
  · rintro ⟨d, hd, y, ⟨hy, hne, hdep⟩, hu, hv⟩
    exact ⟨d, (ho.2.1 tables).mem_iff.mp hd, y, (ho.2.2 d tables).mem_iff.mp hy, hne, hdep,
      hu.symm, hv.symm⟩
  · rintro ⟨d, hd, y, hy, hne, hdep, hu, hv⟩
    exact ⟨d, (ho.2.1 tables).mem_iff.mpr hd, y, ⟨(ho.2.2 d tables).mem_iff.mpr hy, hne, hdep⟩,
      hu.symm, hv.symm⟩

theorem inv_name_inj (h : Heap) (s : Schema) (hinv : Inv h s) (e1 e2 : String × Ptr)
    (h1 : e1 ∈ s.Tables) (h2 : e2 ∈ s.Tables)
    (hn : (deref h e1.2).Name = (deref h e2.2).Name) : e1 = e2 := by
  rw [(hinv.2.1 e1 h1).2, (hinv.2.1 e2 h2).2] at hn
  have hg1 := inv_mapGet h s hinv e1 h1
  have hg2 := inv_mapGet h s hinv e2 h2
  rw [hn, hg2] at hg1
  exact Prod.ext hn (Option.some.inj hg1).symm

theorem inv_tables_nodup (h : Heap) (s : Schema) (hinv : Inv h s) : s.Tables.Nodup :=
  List.Nodup.of_map Prod.fst hinv.1

theorem edgeList_nodup (o : MapOrder) (h : Heap) (s : Schema) (hinv : Inv h s) (ho : o.Valid) :
    (edgeList o h s.Tables).Nodup := by
  have hT := inv_tables_nodup h s hinv
  unfold edgeList
  rw [List.nodup_flatMap]
  constructor
  · intro d _
    apply List.Nodup.map_on
    · intro x hx y hy hxy
      simp only [List.mem_filter] at hx hy
      have hx1 := (ho.2.2 d s.Tables).mem_iff.mp hx.1
      have hy1 := (ho.2.2 d s.Tables).mem_iff.mp hy.1
      exact inv_name_inj h s hinv x y hx1 hy1 (Prod.mk.inj hxy).1
    · exact (((ho.2.2 d s.Tables).nodup_iff).mpr hT).filter _
  · have hnd : (o.outer s.Tables).Nodup := ((ho.2.1 s.Tables).nodup_iff).mpr hT
    refine List.Pairwise.imp_of_mem ?_ (List.Nodup.pairwise_of_forall_ne hnd (fun _ _ _ _ hne => hne))
    intro d1 d2 hd1 hd2 hne
    intro e he1 he2
    simp only [List.mem_map, List.mem_filter] at he1 he2
    obtain ⟨y1, _, rfl⟩ := he1
    obtain ⟨y2, _, heq⟩ := he2
    have hd1' := (ho.2.1 s.Tables).mem_iff.mp hd1
    have hd2' := (ho.2.1 s.Tables).mem_iff.mp hd2
    exact hne (inv_name_inj h s hinv d1 d2 hd1' hd2' (Prod.mk.inj heq).2.symm)

theorem nodeList_perm (o : MapOrder) (h : Heap) (s : Schema) (hinv : Inv h s) (ho : o.Valid) :
    (nodeList o h s).Perm (s.Tables.map Prod.fst) := by
  unfold nodeList
  refine (sortStrings_perm _).trans ?_
  have hmap : (o.names s.Tables).map (fun e => (deref h e.2).Name)
      = (o.names s.Tables).map Prod.fst := by
    apply List.map_congr_left
    intro e he
    exact (hinv.2.1 e ((ho.1 s.Tables).mem_iff.mp he)).2
  rw [hmap]
  exact (ho.1 s.Tables).map Prod.fst

theorem nodeList_nodup (o : MapOrder) (h : Heap) (s : Schema) (hinv : Inv h s) (ho : o.Valid) :
    (nodeList o h s).Nodup :=
  ((nodeList_perm o h s hinv ho).nodup_iff).mpr hinv.1

theorem mem_nodeList (o : MapOrder) (h : Heap) (s : Schema) (hinv : Inv h s) (ho : o.Valid)
    (e : String × Ptr) (he : e ∈ s.Tables) : (deref h e.2).Name ∈ nodeList o h s := by
  rw [(nodeList_perm o h s hinv ho).mem_iff, (hinv.2.1 e he).2]
  exact List.mem_map_of_mem Prod.fst he

theorem edgeList_ends (o : MapOrder) (h : Heap) (s : Schema) (hinv : Inv h s) (ho : o.Valid) :
    ∀ e ∈ edgeList o h s.Tables, e.1 ∈ nodeList o h s ∧ e.2 ∈ nodeList o h s := by
  intro e he
  obtain ⟨d, hd, y, hy, _, _, hu, hv⟩ := (mem_edgeList o h s.Tables ho e.1 e.2).mp he
  rw [hu, hv]
  exact ⟨mem_nodeList o h s hinv ho y hy, mem_nodeList o h s hinv ho d hd⟩

theorem buildGraph_rep (o : MapOrder) (h : Heap) (s : Schema) (hinv : Inv h s) (ho : o.Valid) :
    GraphRep (nodeList o h s) (edgeList o h s.Tables) (buildGraph o h s) := by
  unfold buildGraph
  simp only []
  rw [addEdges_eq]
  have hnodes := graphRep_addNodes (nodeList o h s) [] (NewGraph s.Tables.length)
    (graphRep_new _) (by simpa using nodeList_nodup o h s hinv ho)
  have := graphRep_addEdges (nodeList o h s) (edgeList o h s.Tables) [] _ (by simpa using hnodes)
    (by simpa using edgeList_nodup o h s hinv ho)
    (fun e he => (edgeList_ends o h s hinv ho e he).1)
  simpa [nodeList] using this

/-- On a registry that satisfies the invariant and whose flag is set, `getSortedTables`
returns the names output by the sorter, looked up in `Tables`, when every node was output,
and raises the cyclic-dependency panic otherwise. -/
theorem getSortedTables_spec (o : MapOrder) (h : Heap) (s : Schema) (hinv : Inv h s)
    (ho : o.Valid) (hflag : s.graphOutdated = true) :
    ∃ L, KahnInv (nodeList o h s) (edgeList o h s.Tables) [] L ∧
      Schema.getSortedTables o h s =
        if ∀ v ∈ nodeList o h s, v ∈ L then
          .ok (L.map fun name => mapGet s.Tables name,
            { s with sortedList := L.map fun name => mapGet s.Tables name })
        else .error .cyclicDependency := by
  obtain ⟨L, hrun, hk⟩ := toposort_spec (nodeList o h s) (edgeList o h s.Tables)
    (buildGraph o h s) (nodeList_nodup o h s hinv ho) (edgeList_nodup o h s hinv ho)
    (edgeList_ends o h s hinv ho) (buildGraph_rep o h s hinv ho)
  refine ⟨L, hk, ?_⟩
  unfold Schema.getSortedTables
  simp only [hflag, if_true, hrun]
  by_cases hall : ∀ v ∈ nodeList o h s, v ∈ L
  · rw [if_pos hall, decide_eq_true hall]
    rfl
  · rw [if_neg hall, decide_eq_false hall]
    rfl

/-! ## From names to tables -/

theorem registered_iff (s : Schema) (p : Ptr) : Registered s p ↔ ∃ k, (k, p) ∈ s.Tables := by
  unfold Registered
  simp

/-- A cycle among the graph edges is a cycle of `Depends` among registered tables. -/
theorem edge_acyclic_of_acyclic (o : MapOrder) (h : Heap) (s : Schema) (hinv : Inv h s)
    (ho : o.Valid) (hac : Acyclic h s) (x : String) :
    ¬ Relation.TransGen (fun u v => (u, v) ∈ edgeList o h s.Tables) x x := by
  intro hx
  have hlift := Relation.TransGen.lift
    (p := Function.swap (DependsOn h s)) (fun k => (mapGet s.Tables k).getD 0)
    (by
      intro u v huv
      obtain ⟨d, hd, y, hy, _, hdep, hu, hv⟩ := (mem_edgeList o h s.Tables ho u v).mp huv
      have hfu : (mapGet s.Tables u).getD 0 = y.2 := by
        rw [hu, inv_mapGet_name h s hinv y hy]; rfl
      have hfv : (mapGet s.Tables v).getD 0 = d.2 := by
        rw [hv, inv_mapGet_name h s hinv d hd]; rfl
      show DependsOn h s ((mapGet s.Tables v).getD 0) ((mapGet s.Tables u).getD 0)
      rw [hfu, hfv]
      exact ⟨(registered_iff s d.2).mpr ⟨d.1, hd⟩, (registered_iff s y.2).mpr ⟨y.1, hy⟩, hdep⟩)
    hx
  exact hac _ (Relation.transGen_swap.mp hlift)

/-- A cycle of `Depends` through distinct registered tables is a cycle among the graph edges. -/
theorem edge_cycle_of_cycle (o : MapOrder) (h : Heap) (s : Schema) (ho : o.Valid) (a : Ptr)
    (hcyc : Relation.TransGen (fun x y => x ≠ y ∧ DependsOn h s x y) a a) :
    Relation.TransGen (fun u v => (u, v) ∈ edgeList o h s.Tables)
      (deref h a).Name (deref h a).Name := by
  have hlift := Relation.TransGen.lift
    (p := Function.swap (fun u v => (u, v) ∈ edgeList o h s.Tables)) (fun p => (deref h p).Name)
    (by
      intro x y hxy
      obtain ⟨hne, hx, hy, hdep⟩ := hxy
      obtain ⟨kx, hkx⟩ := (registered_iff s x).mp hx
      obtain ⟨ky, hky⟩ := (registered_iff s y).mp hy
      show ((deref h y).Name, (deref h x).Name) ∈ edgeList o h s.Tables
      exact (mem_edgeList o h s.Tables ho _ _).mpr
        ⟨(kx, x), hkx, (ky, y), hky, hne, hdep, rfl, rfl⟩)
    hcyc
  exact Relation.transGen_swap.mp hlift

/-- The sorter's output, when it lists the table names once each with every graph edge
pointing forward, yields a sequence of tables in which dependencies come first. -/
theorem before_of_order (o : MapOrder) (h : Heap) (s : Schema) (hinv : Inv h s) (ho : o.Valid)
    (L : List String) (hperm : L.Perm (s.Tables.map Prod.fst))
    (hord : ∀ e ∈ edgeList o h s.Tables, List.indexOf e.1 L < List.indexOf e.2 L)
    (a b : Ptr) (ha : Registered s a) (hb : Registered s b) (hne : a ≠ b)
    (hdep : Depends h a b = true) :
    Before (L.map fun name => mapGet s.Tables name) (some b) (some a) := by
  obtain ⟨ka, hka⟩ := (registered_iff s a).mp ha
  obtain ⟨kb, hkb⟩ := (registered_iff s b).mp hb
  have hedge : ((deref h b).Name, (deref h a).Name) ∈ edgeList o h s.Tables :=
    (mem_edgeList o h s.Tables ho _ _).mpr ⟨(ka, a), hka, (kb, b), hkb, hne, hdep, rfl, rfl⟩
  have hlt := hord _ hedge
  have hna : (deref h a).Name = ka := (hinv.2.1 _ hka).2
  have hnb : (deref h b).Name = kb := (hinv.2.1 _ hkb).2
  simp only [hna, hnb] at hlt
  have hmema : ka ∈ L := hperm.mem_iff.mpr (List.mem_map_of_mem Prod.fst hka)
  have hmemb : kb ∈ L := hperm.mem_iff.mpr (List.mem_map_of_mem Prod.fst hkb)
  refine ⟨List.indexOf kb L, List.indexOf ka L, hlt, ?_, ?_⟩
  · rw [List.getElem?_map, List.getElem?_indexOf hmemb]
    simp [inv_mapGet h s hinv _ hkb]
  · rw [List.getElem?_map, List.getElem?_indexOf hmema]
    simp [inv_mapGet h s hinv _ hka]

theorem countP_eq_one_of_mem {α : Type} [DecidableEq α] (l : List α) (a : α) (hnd : l.Nodup)
    (hmem : a ∈ l) : List.countP (fun x => decide (x = a)) l = 1 := by
  induction l with
  | nil => simp at hmem
  | cons x xs ih =>
    have hnd2 := List.nodup_cons.mp hnd
    by_cases hx : x = a
    · subst hx
      have hzero : List.countP (fun y => decide (y = x)) xs = 0 := by
        rw [List.countP_eq_zero]
        intro y hy
        simp only [decide_eq_true_eq]
        rintro rfl
        exact hnd2.1 hy
      simp [List.countP_cons, hzero]
    · have hin : a ∈ xs := by
        rcases List.mem_cons.mp hmem with h | h
        · exact absurd h.symm hx
        · exact h
      simp [List.countP_cons, hx, ih hnd2.2 hin]

/-- The sorter's output, when it lists the table names once each, yields every registered
table exactly once and nothing else. -/
theorem complete_of_perm (h : Heap) (s : Schema) (hinv : Inv h s)
    (L : List String) (hperm : L.Perm (s.Tables.map Prod.fst)) :
    (L.map fun name => mapGet s.Tables name).length = s.Tables.length ∧
    (L.map fun name => mapGet s.Tables name).Nodup ∧
    (∀ x ∈ L.map fun name => mapGet s.Tables name,
      ∃ p, x = some p ∧ Registered s p ∧ mapGet s.Tables (deref h p).Name = some p) ∧
    (∀ p, Registered s p →
      List.countP (fun x => decide (x = some p)) (L.map fun name => mapGet s.Tables name) = 1) := by
  have hL : L.Nodup := (hperm.nodup_iff).mpr hinv.1
  have hentry : ∀ k ∈ L, ∃ p, (k, p) ∈ s.Tables ∧ mapGet s.Tables k = some p := by
    intro k hk
    have hk2 : k ∈ s.Tables.map Prod.fst := hperm.mem_iff.mp hk
    obtain ⟨e, he, rfl⟩ := List.mem_map.mp hk2
    exact ⟨e.2, he, inv_mapGet h s hinv e he⟩
  have hnd : (L.map fun name => mapGet s.Tables name).Nodup := by
    apply List.Nodup.map_on _ hL
    intro k1 hk1 k2 hk2 heq
    obtain ⟨p1, hp1, hg1⟩ := hentry k1 hk1
    obtain ⟨p2, hp2, hg2⟩ := hentry k2 hk2
    rw [hg1, hg2] at heq
    have := inv_entry_eq h s hinv (k1, p1) (k2, p2) hp1 hp2 (Option.some.inj heq)
    exact (Prod.mk.inj this).1
  refine ⟨by simpa using hperm.length_eq, hnd, ?_, ?_⟩
  · intro x hx
    obtain ⟨k, hk, rfl⟩ := List.mem_map.mp hx
    obtain ⟨p, hp, hg⟩ := hentry k hk
    exact ⟨p, hg, (registered_iff s p).mpr ⟨k, hp⟩, inv_mapGet_name h s hinv (k, p) hp⟩
  · intro p hp
    obtain ⟨k, hk⟩ := (registered_iff s p).mp hp
    have hmem : some p ∈ L.map fun name => mapGet s.Tables name :=
      List.mem_map.mpr
        ⟨k, hperm.mem_iff.mpr (List.mem_map_of_mem Prod.fst hk), inv_mapGet h s hinv (k, p) hk⟩
    exact countP_eq_one_of_mem _ _ hnd hmem

/-- On a registry whose flag is set and whose graph edges have no cycle, `getSortedTables`
returns the tables of a sequence of names that lists every key once with every graph edge
pointing forward, and stores what it returns. -/
theorem getSortedTables_acyclic (o : MapOrder) (h : Heap) (s : Schema) (hinv : Inv h s)
    (ho : o.Valid) (hflag : s.graphOutdated = true)
    (hac : ∀ x, ¬ Relation.TransGen (fun u v => (u, v) ∈ edgeList o h s.Tables) x x) :
    ∃ L, L.Perm (s.Tables.map Prod.fst) ∧
      (∀ e ∈ edgeList o h s.Tables, List.indexOf e.1 L < List.indexOf e.2 L) ∧
      Schema.getSortedTables o h s =
        .ok (L.map fun name => mapGet s.Tables name,
          { s with sortedList := L.map fun name => mapGet s.Tables name }) := by
  obtain ⟨L, hk, hrun⟩ := getSortedTables_spec o h s hinv ho hflag
  have hends := edgeList_ends o h s hinv ho
  have hall := kahn_complete _ _ L hends hk hac
  rw [if_pos hall] at hrun
  exact ⟨L, (kahn_perm _ _ L (nodeList_nodup o h s hinv ho) hk hall).trans
    (nodeList_perm o h s hinv ho), kahn_order _ _ L hends hk hall, hrun⟩

/-- On a registry whose flag is set and whose graph edges have a cycle, `getSortedTables`
raises the cyclic-dependency panic. -/
theorem getSortedTables_cyclic (o : MapOrder) (h : Heap) (s : Schema) (hinv : Inv h s)
    (ho : o.Valid) (hflag : s.graphOutdated = true) (x : String)
    (hcyc : Relation.TransGen (fun u v => (u, v) ∈ edgeList o h s.Tables) x x) :
    Schema.getSortedTables o h s = .error .cyclicDependency := by
  obtain ⟨L, hk, hrun⟩ := getSortedTables_spec o h s hinv ho hflag
  have hends := edgeList_ends o h s hinv ho
  by_cases hall : ∀ v ∈ nodeList o h s, v ∈ L
  · exact absurd hcyc (no_cycle_of_order _ L (kahn_order _ _ L hends hk hall) x)
  · rw [if_neg hall] at hrun
    exact hrun

theorem inv_flag_of_registered (h : Heap) (s : Schema) (hinv : Inv h s) (p : Ptr)
    (hp : Registered s p) : s.graphOutdated = true := by
  cases hflag : s.graphOutdated with
  | true => rfl
  | false =>
    have := (hinv.2.2 hflag).1
    rw [Registered, this] at hp
    simp at hp

/-! ## Order validity, completeness, cycle detection -/

theorem acyclic_irrefl (h : Heap) (s : Schema) (hac : Acyclic h s) (a b : Ptr)
    (ha : Registered s a) (hb : Registered s b) (hdep : Depends h a b = true) : a ≠ b := by
  rintro rfl
  exact hac a (Relation.TransGen.single ⟨ha, hb, hdep⟩)

/-- A rank that drops along `Depends` rules out a cycle. -/
theorem acyclic_of_rank (h : Heap) (s : Schema) (f : Ptr → Nat)
    (hf : ∀ a b, DependsOn h s a b → f b < f a) : Acyclic h s := by
  have hlt : ∀ a b, Relation.TransGen (DependsOn h s) a b → f b < f a := by
    intro a b hab
    induction hab with
    | single hd => exact hf _ _ hd
    | tail _ hd ih => exact lt_trans (hf _ _ hd) ih
  intro a ha
  exact lt_irrefl _ (hlt a a ha)

/-- C1 (order validity): on every schema built from the empty schema by `getTable`
registrations, with the tables filled in afterwards, whose `Depends` relation over the
registered tables has no cycle, `getSortedTables` returns, and for all registered tables
`a` and `b` with `a.Depends(b)`, `b` stands at a strictly smaller index than `a` in the
returned sequence, whatever order the `range` loops visit the map in. -/
theorem getSortedTables_order_validity (h : Heap) (s : Schema) (o : MapOrder)
    (hb : Built h s) (ho : o.Valid) (hac : Acyclic h s) :
    ∃ r s1, Schema.getSortedTables o h s = .ok (r, s1) ∧
      ∀ a b, Registered s a → Registered s b → Depends h a b = true →
        Before r (some b) (some a) := by
  have hinv := inv_of_built h s hb
  cases hflag : s.graphOutdated with
  | false =>
    refine ⟨s.sortedList, s, by simp [Schema.getSortedTables, hflag], ?_⟩
    intro a b ha _ _
    have := inv_flag_of_registered h s hinv a ha
    rw [hflag] at this
    cases this
  | true =>
    obtain ⟨L, hperm, hord, hrun⟩ := getSortedTables_acyclic o h s hinv ho hflag
      (edge_acyclic_of_acyclic o h s hinv ho hac)
    refine ⟨_, _, hrun, ?_⟩
    intro a b ha hb2 hdep
    exact before_of_order o h s hinv ho L hperm hord a b ha hb2
      (acyclic_irrefl h s hac a b ha hb2 hdep) hdep

/-- C2 (completeness): on every schema built from the empty schema by `getTable`
registrations whose dependency relation has no cycle, the sequence returned by
`getSortedTables` has as many elements as `Tables` has entries, has no duplicates, each of
its elements is a non-nil table stored in `Tables` under its own `Name`, and every
registered table occurs in it exactly once. -/
theorem getSortedTables_completeness (h : Heap) (s : Schema) (o : MapOrder)
    (hb : Built h s) (ho : o.Valid) (hac : Acyclic h s) :
    ∃ r s1, Schema.getSortedTables o h s = .ok (r, s1) ∧
      r.length = s.Tables.length ∧ r.Nodup ∧
      (∀ x ∈ r, ∃ p, x = some p ∧ Registered s p ∧
        mapGet s.Tables (deref h p).Name = some p) ∧
      (∀ p, Registered s p → List.countP (fun x => decide (x = some p)) r = 1) := by
  have hinv := inv_of_built h s hb
  cases hflag : s.graphOutdated with
  | false =>
    have hempty := hinv.2.2 hflag
    refine ⟨s.sortedList, s, by simp [Schema.getSortedTables, hflag], ?_⟩
    rw [hempty.1, hempty.2]
    refine ⟨rfl, List.nodup_nil, by simp, ?_⟩
    intro p hp
    rw [Registered, hempty.1] at hp
    simp at hp
  | true =>
    obtain ⟨L, hperm, _, hrun⟩ := getSortedTables_acyclic o h s hinv ho hflag
      (edge_acyclic_of_acyclic o h s hinv ho hac)
    exact ⟨_, _, hrun, complete_of_perm h s hinv L hperm⟩

/-- C3 (cycle detection): on every reachable schema in which distinct registered tables
form a cycle of the `Depends` relation, `getSortedTables` raises the cyclic-dependency
panic, so it returns no ordering at all. -/
theorem getSortedTables_cycle_detection (h : Heap) (s : Schema) (o : MapOrder)
    (hr : Reachable h s) (ho : o.Valid)
    (hcyc : ∃ a, Relation.TransGen (fun x y => x ≠ y ∧ DependsOn h s x y) a a) :
    Schema.getSortedTables o h s = .error .cyclicDependency := by
  have hinv := inv_of_reachable h s hr
  obtain ⟨a, ha⟩ := hcyc
  have hreg : Registered s a := by
    cases ha with
    | single hd => exact hd.2.1
    | tail _ hd => exact hd.2.2.1
  have hflag := inv_flag_of_registered h s hinv a hreg
  exact getSortedTables_cyclic o h s hinv ho hflag _ (edge_cycle_of_cycle o h s ho a ha)

/-! ## Tie-break by name -/

theorem toposort_no_edges (nodes : List String) (g : Graph) (hn : nodes.Nodup)
    (hrep : GraphRep nodes [] g) : g.Toposort = .ok (nodes, true) := by
  obtain ⟨L, hrun, _⟩ := toposort_spec nodes [] g hn List.nodup_nil (by simp) hrep
  have hS : (g.nodes.filter fun n => decide (g.input n = 0)) = nodes := by
    rw [hrep.nodes_eq, List.filter_eq_self]
    intro x _
    rw [hrep.input_eq]
    simp [inDeg]
  obtain ⟨g1, hloop⟩ := toposortLoop_no_edges nodes (g.nodes.length + g.edgeCount) g nodes []
    hrep (fun x hx => hx) (by rw [hrep.nodes_eq]; simp)
  have hrun2 := hrun
  unfold Graph.Toposort at hrun2
  simp only [hS, hloop, List.nil_append, Except.ok.injEq, Prod.mk.injEq] at hrun2
  rw [hrun, ← hrun2.1]
  simp

theorem nodeList_eq (o : MapOrder) (h : Heap) (s : Schema) (hinv : Inv h s) (ho : o.Valid) :
    nodeList o h s = sortStrings (s.Tables.map Prod.fst) := by
  unfold nodeList
  apply sortStrings_eq_of_perm
  have hmap : (o.names s.Tables).map (fun e => (deref h e.2).Name)
      = (o.names s.Tables).map Prod.fst := by
    apply List.map_congr_left
    intro e he
    exact (hinv.2.1 e ((ho.1 s.Tables).mem_iff.mp he)).2
  rw [hmap]
  exact (ho.1 s.Tables).map Prod.fst

/-- C5 (tie-break by name): on every schema built by `getTable` registrations in which no
registered table `Depends` on another registered table, `getSortedTables` returns the
tables of the registered names taken in ascending lexicographic order: the returned
sequence is the lookup of `sort.Strings` of the keys, which is ascending and a
rearrangement of the keys. -/
theorem getSortedTables_tie_break (h : Heap) (s : Schema) (o : MapOrder)
    (hb : Built h s) (ho : o.Valid)
    (hnodep : ∀ a b, Registered s a → Registered s b → a ≠ b → Depends h a b = false) :
    ∃ r s1, Schema.getSortedTables o h s = .ok (r, s1) ∧
      r = (sortStrings (s.Tables.map Prod.fst)).map (fun name => mapGet s.Tables name) ∧
      List.Sorted StrLE (sortStrings (s.Tables.map Prod.fst)) ∧
      (sortStrings (s.Tables.map Prod.fst)).Perm (s.Tables.map Prod.fst) := by
  have hinv := inv_of_built h s hb
  cases hflag : s.graphOutdated with
  | false =>
    have hempty := hinv.2.2 hflag
    refine ⟨s.sortedList, s, by simp [Schema.getSortedTables, hflag], ?_,
      sortStrings_sorted _, sortStrings_perm _⟩
    rw [hempty.1, hempty.2]
    rfl
  | true =>
    have hE : edgeList o h s.Tables = [] := by
      apply List.eq_nil_iff_forall_not_mem.mpr
      intro e he
      obtain ⟨d, hd, y, hy, hne, hdep, _, _⟩ := (mem_edgeList o h s.Tables ho e.1 e.2).mp he
      have := hnodep d.2 y.2 ((registered_iff s d.2).mpr ⟨d.1, hd⟩)
        ((registered_iff s y.2).mpr ⟨y.1, hy⟩) hne
      rw [this] at hdep
      cases hdep
    have hrep := buildGraph_rep o h s hinv ho
    rw [hE] at hrep
    have hrun := toposort_no_edges (nodeList o h s) (buildGraph o h s)
      (nodeList_nodup o h s hinv ho) hrep
    refine ⟨(sortStrings (s.Tables.map Prod.fst)).map (fun name => mapGet s.Tables name),
      ⟨s.Tables, (sortStrings (s.Tables.map Prod.fst)).map (fun name => mapGet s.Tables name),
        s.graphOutdated⟩, ?_, rfl, sortStrings_sorted _, sortStrings_perm _⟩
    unfold Schema.getSortedTables
    simp only [hflag, if_true, hrun, nodeList_eq o h s hinv ho]
    rfl

/-! ## The example schemas -/

theorem inOrder_valid : MapOrder.inOrder.Valid :=
  ⟨fun l => List.Perm.refl l, fun l => List.Perm.refl l, fun _ l => List.Perm.refl l⟩

theorem outerReversed_valid : MapOrder.outerReversed.Valid :=
  ⟨fun l => List.Perm.refl l, fun l => List.reverse_perm l, fun _ l => List.Perm.refl l⟩

theorem built_register (st : Heap × Schema) (name : String) (hb : Built st.1 st.2) :
    Built (register st name).1 (register st name).2 :=
  Built.getTable st.1 st.2 ⟨name, 0⟩ hb

theorem built_setEdges (h : Heap) (s : Schema) (p : Ptr) (edges : List Edge) (hb : Built h s)
    (hp : p < h.length) : Built (setEdges h p edges) s :=
  Built.populate h s p _ hb hp rfl

theorem plainBuilt : Built plainHeap orderSchema :=
  built_register _ "Customer" (built_register _ "Order" Built.empty)

theorem orderBuilt : Built orderHeap orderSchema :=
  built_setEdges _ _ 0 _ plainBuilt (by decide)

theorem orderAcyclic : Acyclic orderHeap orderSchema := by
  apply acyclic_of_rank _ _ (fun p => if p = 0 then 1 else 0)
  intro a b hd
  have ha : a ∈ [0, 1] := hd.1
  have hb : b ∈ [0, 1] := hd.2.1
  have hdep := hd.2.2
  simp only [List.mem_cons, List.mem_singleton, List.not_mem_nil, or_false] at ha hb
  rcases ha with rfl | rfl <;> rcases hb with rfl | rfl <;> revert hdep <;> decide

theorem fooBarBuilt : Built fooBarHeap fooBarSchema :=
  built_setEdges _ _ 1 _
    (built_setEdges _ _ 0 _ (built_register _ "Bar" (built_register _ "Foo" Built.empty))
      (by decide))
    (by decide)

theorem fooBarCycle :
    ∃ a, Relation.TransGen (fun x y => x ≠ y ∧ DependsOn fooBarHeap fooBarSchema x y) a a :=
  ⟨0, Relation.TransGen.tail (Relation.TransGen.single (b := 1) (by decide)) (by decide)⟩

theorem greekBuilt : Built greekHeap greekSchema :=
  built_register _ "Beta" (built_register _ "Alpha" (built_register _ "Gamma" Built.empty))

theorem greekIndependent :
    ∀ a b, Registered greekSchema a → Registered greekSchema b → a ≠ b →
      Depends greekHeap a b = false := by
  intro a b ha hb _
  have ha2 : a ∈ [0, 1, 2] := ha
  have hb2 : b ∈ [0, 1, 2] := hb
  simp only [List.mem_cons, List.mem_singleton, List.not_mem_nil, or_false] at ha2 hb2
  rcases ha2 with rfl | rfl | rfl <;> rcases hb2 with rfl | rfl | rfl <;> decide

theorem fanBuilt : Built fanHeap fanSchema :=
  built_setEdges _ _ 2 _
    (built_setEdges _ _ 1 _
      (built_register _ "C" (built_register _ "B" (built_register _ "A" Built.empty)))
      (by decide))
    (by decide)

theorem fanAcyclic : Acyclic fanHeap fanSchema := by
  apply acyclic_of_rank _ _ (fun p => if p = 0 then 0 else 1)
  intro a b hd
  have ha : a ∈ [0, 1, 2] := hd.1
  have hb : b ∈ [0, 1, 2] := hd.2.1
  have hdep := hd.2.2
  simp only [List.mem_cons, List.mem_singleton, List.not_mem_nil, or_false] at ha hb
  rcases ha with rfl | rfl | rfl <;> rcases hb with rfl | rfl | rfl <;> revert hdep <;> decide

/-! ## Witnesses of C1, C2, C3 and C5 -/

/-- Witness of C1 on `Order` and `Customer`. -/
theorem getSortedTables_order_validity_witness :
    Built orderHeap orderSchema ∧ MapOrder.inOrder.Valid ∧ Acyclic orderHeap orderSchema ∧
    ∃ r s1, Schema.getSortedTables MapOrder.inOrder orderHeap orderSchema = .ok (r, s1) ∧
      ∀ a b, Registered orderSchema a → Registered orderSchema b →
        Depends orderHeap a b = true → Before r (some b) (some a) :=
  ⟨orderBuilt, inOrder_valid, orderAcyclic,
    getSortedTables_order_validity orderHeap orderSchema MapOrder.inOrder orderBuilt
      inOrder_valid orderAcyclic⟩

/-- Witness of C2 on `A`, `B` and `C`, with the outer loop running backwards. -/
theorem getSortedTables_completeness_witness :
    Built fanHeap fanSchema ∧ MapOrder.outerReversed.Valid ∧ Acyclic fanHeap fanSchema ∧
    ∃ r s1, Schema.getSortedTables MapOrder.outerReversed fanHeap fanSchema = .ok (r, s1) ∧
      r.length = fanSchema.Tables.length ∧ r.Nodup ∧
      (∀ x ∈ r, ∃ p, x = some p ∧ Registered fanSchema p ∧
        mapGet fanSchema.Tables (deref fanHeap p).Name = some p) ∧
      (∀ p, Registered fanSchema p → List.countP (fun x => decide (x = some p)) r = 1) :=
  ⟨fanBuilt, outerReversed_valid, fanAcyclic,
    getSortedTables_completeness fanHeap fanSchema MapOrder.outerReversed fanBuilt
      outerReversed_valid fanAcyclic⟩

/-- Witness of C3 on `Foo` and `Bar`. -/
theorem getSortedTables_cycle_detection_witness :
    Reachable fooBarHeap fooBarSchema ∧ MapOrder.inOrder.Valid ∧
    (∃ a, Relation.TransGen (fun x y => x ≠ y ∧ DependsOn fooBarHeap fooBarSchema x y) a a) ∧
    Schema.getSortedTables MapOrder.inOrder fooBarHeap fooBarSchema = .error .cyclicDependency :=
  ⟨reachable_of_built _ _ fooBarBuilt, inOrder_valid, fooBarCycle,
    getSortedTables_cycle_detection fooBarHeap fooBarSchema MapOrder.inOrder
      (reachable_of_built _ _ fooBarBuilt) inOrder_valid fooBarCycle⟩

/-- Witness of C5 on `Gamma`, `Alpha` and `Beta`, registered in this order: the sorted
keys are `Alpha, Beta, Gamma`. -/
theorem getSortedTables_tie_break_witness :
    Built greekHeap greekSchema ∧ MapOrder.outerReversed.Valid ∧
    (∀ a b, Registered greekSchema a → Registered greekSchema b → a ≠ b →
      Depends greekHeap a b = false) ∧
    sortStrings (greekSchema.Tables.map Prod.fst) = ["Alpha", "Beta", "Gamma"] ∧
    ∃ r s1, Schema.getSortedTables MapOrder.outerReversed greekHeap greekSchema = .ok (r, s1) ∧
      r = (sortStrings (greekSchema.Tables.map Prod.fst)).map
        (fun name => mapGet greekSchema.Tables name) ∧
      List.Sorted StrLE (sortStrings (greekSchema.Tables.map Prod.fst)) ∧
      (sortStrings (greekSchema.Tables.map Prod.fst)).Perm (greekSchema.Tables.map Prod.fst) :=
  ⟨greekBuilt, outerReversed_valid, greekIndependent, by decide,
    getSortedTables_tie_break greekHeap greekSchema MapOrder.outerReversed greekBuilt
      outerReversed_valid greekIndependent⟩

/-! ## Determinism, the staleness flag and the cache -/

/-- C4 (determinism), evaluated on `A`, `B`, `C` where `B` and `C` each depend on `A`:
the same tables with the same edges yield the name order `A, B, C` when the outer `range`
loop visits `A, B, C`, and the name order `A, C, B` when it visits `C, B, A`. -/
theorem getSortedTables_order_varies_with_range :
    Built fanHeap fanSchema ∧ MapOrder.inOrder.Valid ∧ MapOrder.outerReversed.Valid ∧
    (Schema.getSortedTables MapOrder.inOrder fanHeap fanSchema).map Prod.fst
      = .ok [some 0, some 1, some 2] ∧
    (Schema.getSortedTables MapOrder.outerReversed fanHeap fanSchema).map Prod.fst
      = .ok [some 0, some 2, some 1] :=
  ⟨fanBuilt, inOrder_valid, outerReversed_valid, by decide, by decide⟩

/-- C6 (staleness flag), evaluated on `Order` and `Customer`: the call on the stale schema
succeeds and caches what it returns, and the flag `graphOutdated` is still set afterwards. -/
theorem getSortedTables_leaves_flag_set :
    orderSchema.graphOutdated = true ∧
    Schema.getSortedTables MapOrder.inOrder orderHeap orderSchema
      = .ok ([some 1, some 0],
          { Tables := orderSchema.Tables, sortedList := [some 1, some 0],
            graphOutdated := true }) :=
  ⟨by decide, by decide⟩

/-- C7 (stale cache after edge mutation), evaluated on `Order` and `Customer`: the first call
caches `Customer, Order`; once `Customer` has been given a `ManyToOne` edge to `Order`, the
next call does not return the cached order but the recomputed `Order, Customer`. -/
theorem getSortedTables_recomputes_after_edge :
    Schema.getSortedTables MapOrder.inOrder plainHeap orderSchema
      = .ok ([some 1, some 0],
          { Tables := orderSchema.Tables, sortedList := [some 1, some 0],
            graphOutdated := true }) ∧
    Depends staleHeap 1 0 = true ∧
    Schema.getSortedTables MapOrder.inOrder staleHeap
        { Tables := orderSchema.Tables, sortedList := [some 1, some 0], graphOutdated := true }
      = .ok ([some 0, some 1],
          { Tables := orderSchema.Tables, sortedList := [some 0, some 1],
            graphOutdated := true }) :=
  ⟨by decide, by decide, by decide⟩

/-- C8 (idempotent caching), evaluated on `A`, `B`, `C` where `B` and `C` each depend on
`A`: the first call returns `A, B, C`; the second call, on the schema the first call left
and with nothing registered or changed in between, runs the sort again and, when its
outer `range` loop visits the map backwards, returns `A, C, B`. -/
theorem getSortedTables_second_call_differs :
    Acyclic fanHeap fanSchema ∧
    Schema.getSortedTables MapOrder.inOrder fanHeap fanSchema
      = .ok ([some 0, some 1, some 2],
          { Tables := fanSchema.Tables, sortedList := [some 0, some 1, some 2],
            graphOutdated := true }) ∧
    (Schema.getSortedTables MapOrder.outerReversed fanHeap
        { Tables := fanSchema.Tables, sortedList := [some 0, some 1, some 2],
          graphOutdated := true }).map Prod.fst
      = .ok [some 0, some 2, some 1] :=
  ⟨fanAcyclic, by decide, by decide⟩

/-! ## Cache invalidation -/

theorem getTable_new (h : Heap) (s : Schema) (typ : ReflectType)
    (hnew : mapGet s.Tables typ.Name = none) :
    Schema.getTable h s typ =
      (some h.length, h ++ [NewMainTable typ],
        { s with graphOutdated := true, Tables := mapSet s.Tables typ.Name h.length }) := by
  unfold Schema.getTable
  simp [hnew, mapGet_mapSet_self]

theorem reachable_populated (h h1 : Heap) (s : Schema) (hr : Reachable h s)
    (hpop : Populated h h1) : Reachable h1 s := by
  induction hpop with
  | refl => exact hr
  | step h1 p t _ hp hname ih => exact Reachable.populate h1 s p t ih hp hname

/-- C9 (cache invalidation): take any reachable schema on which `getSortedTables` has
returned an ordering, let tables be filled in afterwards, register a type of a name not
registered before, and let tables, the new one among them, be filled in again. Then the
next `getSortedTables` call, if the `Depends` relation has no cycle, returns a sequence
that holds the new table exactly once, holds every registered table exactly once and
nothing else, and puts every table after the tables it depends on. -/
theorem getSortedTables_after_registration (h h1 h3 : Heap) (s s1 : Schema) (o o2 : MapOrder)
    (r : List (Option Ptr)) (typ : ReflectType)
    (hr : Reachable h s) (ho : o.Valid) (ho2 : o2.Valid)
    (hrun : Schema.getSortedTables o h s = .ok (r, s1))
    (hpop1 : Populated h h1)
    (hnew : mapGet s1.Tables typ.Name = none)
    (hpop3 : Populated (Schema.getTable h1 s1 typ).2.1 h3)
    (hac : Acyclic h3 (Schema.getTable h1 s1 typ).2.2) :
    ∃ p r2 s3, (Schema.getTable h1 s1 typ).1 = some p ∧
      (deref h3 p).Name = typ.Name ∧
      Schema.getSortedTables o2 h3 (Schema.getTable h1 s1 typ).2.2 = .ok (r2, s3) ∧
      List.countP (fun x => decide (x = some p)) r2 = 1 ∧
      r2.length = (Schema.getTable h1 s1 typ).2.2.Tables.length ∧ r2.Nodup ∧
      (∀ x ∈ r2, ∃ q, x = some q ∧ Registered (Schema.getTable h1 s1 typ).2.2 q) ∧
      (∀ q, Registered (Schema.getTable h1 s1 typ).2.2 q →
        List.countP (fun x => decide (x = some q)) r2 = 1) ∧
      ∀ a b, Registered (Schema.getTable h1 s1 typ).2.2 a →
        Registered (Schema.getTable h1 s1 typ).2.2 b →
        Depends h3 a b = true → Before r2 (some b) (some a) := by
  have hr1 : Reachable h s1 := Reachable.getSortedTables o h s r s1 hr ho hrun
  have hr2 := Reachable.getTable h1 s1 typ (reachable_populated h h1 s1 hr1 hpop1)
  have hr3 := reachable_populated _ h3 _ hr2 hpop3
  have hinv := inv_of_reachable _ _ hr3
  have hget := getTable_new h1 s1 typ hnew
  have hflag : (Schema.getTable h1 s1 typ).2.2.graphOutdated = true := by rw [hget]
  have hentry : (typ.Name, h1.length) ∈ (Schema.getTable h1 s1 typ).2.2.Tables := by
    rw [hget]
    exact mem_of_mapGet _ _ _ (mapGet_mapSet_self _ _ _)
  have hreg : Registered (Schema.getTable h1 s1 typ).2.2 h1.length :=
    (registered_iff _ _).mpr ⟨typ.Name, hentry⟩
  obtain ⟨L, hperm, hord, hrun2⟩ := getSortedTables_acyclic o2 _ _ hinv ho2 hflag
    (edge_acyclic_of_acyclic o2 _ _ hinv ho2 hac)
  obtain ⟨c1, c2, c3, c4⟩ := complete_of_perm _ _ hinv L hperm
  refine ⟨h1.length, _, _, by rw [hget], (hinv.2.1 _ hentry).2, hrun2, c4 _ hreg, c1, c2, ?_,
    c4, ?_⟩
  · intro x hx
    obtain ⟨q, hq, hq2, _⟩ := c3 x hx
    exact ⟨q, hq, hq2⟩
  · intro a b ha hb hdep
    exact before_of_order o2 _ _ hinv ho2 L hperm hord a b ha hb
      (acyclic_irrefl _ _ hac a b ha hb hdep) hdep

theorem invoicePopulated :
    Populated (Schema.getTable orderHeap orderSorted invoiceType).2.1 invoiceHeap :=
  Populated.step _ _ 2 _ (Populated.refl _) (by decide) rfl

theorem invoiceAcyclic :
    Acyclic invoiceHeap (Schema.getTable orderHeap orderSorted invoiceType).2.2 := by
  apply acyclic_of_rank _ _ (fun p => if p = 2 then 2 else if p = 0 then 1 else 0)
  intro a b hd
  have ha : a ∈ [0, 1, 2] := hd.1
  have hb : b ∈ [0, 1, 2] := hd.2.1
  have hdep := hd.2.2
  simp only [List.mem_cons, List.mem_singleton, List.not_mem_nil, or_false] at ha hb
  rcases ha with rfl | rfl | rfl <;> rcases hb with rfl | rfl | rfl <;> revert hdep <;> decide

/-- Witness of C9: `Order` and `Customer` are sorted, `Invoice` is registered and given a
`ManyToOne` edge to `Order`; the next call returns `Customer, Order, Invoice`. -/
theorem getSortedTables_after_registration_witness :
    Reachable orderHeap orderSchema ∧ MapOrder.inOrder.Valid ∧ MapOrder.outerReversed.Valid ∧
    Schema.getSortedTables MapOrder.inOrder orderHeap orderSchema
      = .ok ([some 1, some 0], orderSorted) ∧
    Populated orderHeap orderHeap ∧
    mapGet orderSorted.Tables invoiceType.Name = none ∧
    Populated (Schema.getTable orderHeap orderSorted invoiceType).2.1 invoiceHeap ∧
    Acyclic invoiceHeap (Schema.getTable orderHeap orderSorted invoiceType).2.2 ∧
    Depends invoiceHeap 2 0 = true ∧
    (Schema.getSortedTables MapOrder.outerReversed invoiceHeap
        (Schema.getTable orderHeap orderSorted invoiceType).2.2).map Prod.fst
      = .ok [some 1, some 0, some 2] ∧
    ∃ p r2 s3, (Schema.getTable orderHeap orderSorted invoiceType).1 = some p ∧
      (deref invoiceHeap p).Name = invoiceType.Name ∧
      Schema.getSortedTables MapOrder.outerReversed invoiceHeap
          (Schema.getTable orderHeap orderSorted invoiceType).2.2
        = .ok (r2, s3) ∧
      List.countP (fun x => decide (x = some p)) r2 = 1 ∧
      r2.length = (Schema.getTable orderHeap orderSorted invoiceType).2.2.Tables.length ∧
      r2.Nodup ∧
      (∀ x ∈ r2, ∃ q, x = some q ∧
        Registered (Schema.getTable orderHeap orderSorted invoiceType).2.2 q) ∧
      (∀ q, Registered (Schema.getTable orderHeap orderSorted invoiceType).2.2 q →
        List.countP (fun x => decide (x = some q)) r2 = 1) ∧
      ∀ a b, Registered (Schema.getTable orderHeap orderSorted invoiceType).2.2 a →
        Registered (Schema.getTable orderHeap orderSorted invoiceType).2.2 b →
        Depends invoiceHeap a b = true → Before r2 (some b) (some a) :=
  ⟨reachable_of_built _ _ orderBuilt, inOrder_valid, outerReversed_valid, by decide,
    Populated.refl _, by decide, invoicePopulated, invoiceAcyclic, by decide, by decide,
    getSortedTables_after_registration orderHeap orderHeap invoiceHeap orderSchema orderSorted
      MapOrder.inOrder MapOrder.outerReversed [some 1, some 0] invoiceType
      (reachable_of_built _ _ orderBuilt) inOrder_valid outerReversed_valid (by decide)
      (Populated.refl _) (by decide) invoicePopulated invoiceAcyclic⟩

/-! ## The dependency predicate -/

/-- C10 (dependency predicate): `a.Depends(b)` is true if and only if `a.knownParent` is
`b`, or `a.Edges` holds an edge whose `PeerTable` is the `Name` of `b` and whose kind is
neither `OneToOne` nor `OneToMany`. In particular a table whose `knownParent` is not `b`
and whose edges to `b` are all of kind `OneToOne` or `OneToMany` does not depend on `b`. -/
theorem depends_iff (h : Heap) (a b : Ptr) :
    (Depends h a b = true ↔
      (deref h a).knownParent = some b ∨
      ∃ e ∈ (deref h a).Edges, e.PeerTable = (deref h b).Name ∧
        e.Typ ≠ EdgeTypeOneOne ∧ e.Typ ≠ EdgeTypeOneMulti) ∧
    ((deref h a).knownParent ≠ some b →
      (∀ e ∈ (deref h a).Edges, e.PeerTable = (deref h b).Name →
        e.Typ = EdgeTypeOneOne ∨ e.Typ = EdgeTypeOneMulti) →
      Depends h a b = false) := by
  have hiff : Depends h a b = true ↔
      (deref h a).knownParent = some b ∨
      ∃ e ∈ (deref h a).Edges, e.PeerTable = (deref h b).Name ∧
        e.Typ ≠ EdgeTypeOneOne ∧ e.Typ ≠ EdgeTypeOneMulti := by
    unfold Depends
    by_cases hk : (deref h a).knownParent = some b
    · simp [hk]
    · simp only [hk, if_false, false_or, List.any_eq_true, Bool.and_eq_true, bne_iff_ne, ne_eq,
        beq_iff_eq]
      constructor
      · rintro ⟨e, he, ⟨h1, h2⟩, h3⟩
        exact ⟨e, he, h3, h1, h2⟩
      · rintro ⟨e, he, h3, h1, h2⟩
        exact ⟨e, he, ⟨h1, h2⟩, h3⟩
  refine ⟨hiff, ?_⟩
  intro hk hall
  cases hdep : Depends h a b with
  | false => rfl
  | true =>
    rcases hiff.mp hdep with hp | ⟨e, he, h3, h1, h2⟩
    · exact absurd hp hk
    · rcases hall e he h3 with h4 | h4
      · exact absurd h4 h1
      · exact absurd h4 h2

/-- Witness of C10: `A`, whose only edge to `B` is of kind `OneToOne`, does not depend on
`B`. -/
theorem depends_iff_witness :
    (deref oneOneHeap 0).knownParent ≠ some 1 ∧
    (∀ e ∈ (deref oneOneHeap 0).Edges, e.PeerTable = (deref oneOneHeap 1).Name →
      e.Typ = EdgeTypeOneOne ∨ e.Typ = EdgeTypeOneMulti) ∧
    Depends oneOneHeap 0 1 = false :=
  ⟨by decide, by decide, (depends_iff oneOneHeap 0 1).2 (by decide) (by decide)⟩

/-! ## Every returned order is valid for the current edges -/

theorem nodup_index_unique {α : Type} (l : List α) (hnd : l.Nodup) (i j : Nat) (x : α)
    (hi : l[i]? = some x) (hj : l[j]? = some x) : i = j := by
  obtain ⟨hi1, hi2⟩ := List.getElem?_eq_some.mp hi
  obtain ⟨hj1, hj2⟩ := List.getElem?_eq_some.mp hj
  exact (@List.Nodup.getElem_inj_iff _ l hnd i hi1 j hj1).mp (hi2.trans hj2.symm)

theorem before_asymm {α : Type} (l : List α) (hnd : l.Nodup) (x y : α)
    (hxy : Before l x y) : ¬ Before l y x := by
  rintro ⟨i2, j2, hlt2, hi2, hj2⟩
  obtain ⟨i, j, hlt, hi, hj⟩ := hxy
  have h1 := nodup_index_unique l hnd i j2 x hi hj2
  have h2 := nodup_index_unique l hnd j i2 y hj hi2
  omega

theorem before_irrefl {α : Type} (l : List α) (hnd : l.Nodup) (x : α) : ¬ Before l x x := by
  rintro ⟨i, j, hlt, hi, hj⟩
  have := nodup_index_unique l hnd i j x hi hj
  omega

/-- On every reachable schema, whatever was registered or changed before the call, a
sequence returned by `getSortedTables` never has a table at a smaller index than a table
it depends on: once a table is registered the flag stays set and each call sorts again. -/
theorem getSortedTables_never_stale (h : Heap) (s s1 : Schema) (o : MapOrder)
    (r : List (Option Ptr)) (hr : Reachable h s) (ho : o.Valid)
    (hrun : Schema.getSortedTables o h s = .ok (r, s1)) (a b : Ptr)
    (ha : Registered s a) (hb : Registered s b) (hdep : Depends h a b = true) :
    ¬ Before r (some a) (some b) := by
  have hinv := inv_of_reachable h s hr
  have hflag := inv_flag_of_registered h s hinv a ha
  obtain ⟨L, hk, hspec⟩ := getSortedTables_spec o h s hinv ho hflag
  rw [hrun] at hspec
  by_cases hall : ∀ v ∈ nodeList o h s, v ∈ L
  · rw [if_pos hall] at hspec
    have hr2 : r = L.map fun name => mapGet s.Tables name := by
      have := Except.ok.inj hspec
      exact (Prod.mk.inj this).1
    have hperm : L.Perm (s.Tables.map Prod.fst) :=
      (kahn_perm _ _ L (nodeList_nodup o h s hinv ho) hk hall).trans
        (nodeList_perm o h s hinv ho)
    have hnd : r.Nodup := by
      rw [hr2]
      exact (complete_of_perm h s hinv L hperm).2.1
    by_cases hab : a = b
    · rw [hab]
      exact before_irrefl r hnd (some b)
    · have hord := kahn_order _ _ L (edgeList_ends o h s hinv ho) hk hall
      have := before_of_order o h s hinv ho L hperm hord a b ha hb hab hdep
      rw [← hr2] at this
      exact before_asymm r hnd _ _ this
  · rw [if_neg hall] at hspec
    cases hspec

/-! ## The registry: `getTable` and `mustGetTable` -/

/-- C11 (`getTable` on an unregistered identity): when no table is registered under the
name of the type, `getTable` allocates a new `MainTable`, which is the empty table of that
name (no fields, no keys, no edges, no aux tables, no `knownParent`), adds to `Tables` the
one entry that maps the name to it, leaves every other entry and every other table as they
were, sets the flag `graphOutdated`, keeps `sortedList`, and returns the new table. -/
theorem getTable_unregistered (h : Heap) (s : Schema) (typ : ReflectType)
    (hnew : mapGet s.Tables typ.Name = none) :
    (Schema.getTable h s typ).1 = some h.length ∧
    (Schema.getTable h s typ).2.2.Tables = s.Tables ++ [(typ.Name, h.length)] ∧
    mapGet (Schema.getTable h s typ).2.2.Tables typ.Name = some h.length ∧
    (∀ k, k ≠ typ.Name → mapGet (Schema.getTable h s typ).2.2.Tables k = mapGet s.Tables k) ∧
    (Schema.getTable h s typ).2.1 = h ++ [NewMainTable typ] ∧
    deref (Schema.getTable h s typ).2.1 h.length = NewMainTable typ ∧
    (∀ q, q < h.length → deref (Schema.getTable h s typ).2.1 q = deref h q) ∧
    ((NewMainTable typ).Name = typ.Name ∧ (NewMainTable typ).SimpleFields = [] ∧
      (NewMainTable typ).PrimaryKeys = [] ∧ (NewMainTable typ).UniqueKeys = [] ∧
      (NewMainTable typ).CompositeKeys = [] ∧ (NewMainTable typ).ForeignKeys = [] ∧
      (NewMainTable typ).Edges = [] ∧ (NewMainTable typ).AuxTables = [] ∧
      (NewMainTable typ).knownParent = none ∧ (NewMainTable typ).Typ = typ) ∧
    (Schema.getTable h s typ).2.2.graphOutdated = true ∧
    (Schema.getTable h s typ).2.2.sortedList = s.sortedList := by
  have hkey : typ.Name ∉ s.Tables.map Prod.fst := (mapGet_eq_none_iff _ _).mp hnew
  rw [getTable_new h s typ hnew]
  refine ⟨rfl, mapSet_of_not_mem _ _ _ hkey, mapGet_mapSet_self _ _ _, ?_, rfl,
    deref_append_length h _, ?_, ?_, rfl, rfl⟩
  · intro k hk
    exact mapGet_mapSet_ne _ _ _ _ hk
  · intro q hq
    exact deref_append_lt h _ q hq
  · exact ⟨rfl, rfl, rfl, rfl, rfl, rfl, rfl, rfl, rfl, rfl⟩

/-- Witness of C11: `Invoice` is registered next to `Order` and `Customer`. -/
theorem getTable_unregistered_witness :
    mapGet orderSchema.Tables invoiceType.Name = none ∧
    (Schema.getTable orderHeap orderSchema invoiceType).1 = some 2 ∧
    (Schema.getTable orderHeap orderSchema invoiceType).2.2.Tables
      = [("Order", 0), ("Customer", 1), ("Invoice", 2)] ∧
    (Schema.getTable orderHeap orderSchema invoiceType).2.2.graphOutdated = true :=
  ⟨by decide, (getTable_unregistered orderHeap orderSchema invoiceType (by decide)).1,
    (getTable_unregistered orderHeap orderSchema invoiceType (by decide)).2.1,
    (getTable_unregistered orderHeap orderSchema invoiceType (by decide)).2.2.2.2.2.2.2.2.1⟩

theorem getTable_old (h : Heap) (s : Schema) (typ : ReflectType) (p : Ptr)
    (hold : mapGet s.Tables typ.Name = some p) : Schema.getTable h s typ = (some p, h, s) := by
  unfold Schema.getTable
  simp [hold]

/-- C12 (`getTable` is idempotent): when a table is registered under the name of the type,
`getTable` returns that table and leaves the heap (so every table with its edges, fields
and flags) and the schema (`Tables`, `sortedList`, `graphOutdated`) as they were; hence a
second `getTable` call with the same type, or with any type of the same name, returns what
the first call returned and leaves the state the first call left. -/
theorem getTable_idempotent (h : Heap) (s : Schema) (typ : ReflectType) :
    (∀ p, mapGet s.Tables typ.Name = some p → Schema.getTable h s typ = (some p, h, s)) ∧
    ∀ typ2 : ReflectType, typ2.Name = typ.Name →
      Schema.getTable (Schema.getTable h s typ).2.1 (Schema.getTable h s typ).2.2 typ2
        = Schema.getTable h s typ := by
  refine ⟨fun p hp => getTable_old h s typ p hp, ?_⟩
  intro typ2 hname
  cases hget : mapGet s.Tables typ.Name with
  | some p =>
    rw [getTable_old h s typ p hget]
    exact getTable_old h s typ2 p (by rw [hname]; exact hget)
  | none =>
    rw [getTable_new h s typ hget]
    exact getTable_old _ _ typ2 h.length (by rw [hname]; exact mapGet_mapSet_self _ _ _)

/-- Witness of C12: `Order` is requested again, by its type and by another type of the
same name. -/
theorem getTable_idempotent_witness :
    mapGet orderSchema.Tables orderType.Name = some 0 ∧
    Schema.getTable orderHeap orderSchema orderType = (some 0, orderHeap, orderSchema) ∧
    Schema.getTable (Schema.getTable orderHeap orderSchema orderType).2.1
        (Schema.getTable orderHeap orderSchema orderType).2.2 otherOrderType
      = Schema.getTable orderHeap orderSchema orderType :=
  ⟨by decide, (getTable_idempotent orderHeap orderSchema orderType).1 0 (by decide),
    (getTable_idempotent orderHeap orderSchema orderType).2 otherOrderType (by decide)⟩

/-- C13 (`mustGetTable`): the call returns the table stored in `Tables` under `name` when
that key is present, panics with the table-not-found message if and only if the key is
absent, and in both cases leaves the schema as it was. -/
theorem mustGetTable_lookup (s : Schema) (name : String) :
    (∀ p, mapGet s.Tables name = some p → (s.mustGetTable name).1 = .ok p) ∧
    ((∃ e, (s.mustGetTable name).1 = .error e) ↔ name ∉ s.Tables.map Prod.fst) ∧
    (name ∉ s.Tables.map Prod.fst →
      (s.mustGetTable name).1 = .error (.text ("table " ++ name ++ " does not exist"))) ∧
    (s.mustGetTable name).2 = s := by
  cases hget : mapGet s.Tables name with
  | none =>
    have hkey := (mapGet_eq_none_iff _ _).mp hget
    have hval : s.mustGetTable name
        = (.error (.text ("table " ++ name ++ " does not exist")), s) := by
      simp only [Schema.mustGetTable, hget]
    rw [hval]
    refine ⟨?_, ⟨fun _ => hkey, fun _ => ⟨_, rfl⟩⟩, fun _ => rfl, rfl⟩
    intro p hp
    cases hp
  | some p =>
    have hkey : ¬ name ∉ s.Tables.map Prod.fst := by
      intro hc
      rw [(mapGet_eq_none_iff _ _).mpr hc] at hget
      cases hget
    have hval : s.mustGetTable name = (.ok p, s) := by
      simp only [Schema.mustGetTable, hget]
    rw [hval]
    refine ⟨?_, ⟨?_, fun hc => absurd hc hkey⟩, fun hc => absurd hc hkey, rfl⟩
    · intro q hq
      cases hq
      rfl
    · rintro ⟨e, he⟩
      cases he

/-- Witness of C13: `Customer` is found, `Invoice` is not. -/
theorem mustGetTable_lookup_witness :
    (orderSchema.mustGetTable "Customer").1 = .ok 1 ∧
    "Invoice" ∉ orderSchema.Tables.map Prod.fst ∧
    (orderSchema.mustGetTable "Invoice").1
      = .error (.text "table Invoice does not exist") ∧
    (orderSchema.mustGetTable "Invoice").2 = orderSchema :=
  ⟨(mustGetTable_lookup orderSchema "Customer").1 1 (by decide), by decide,
    (mustGetTable_lookup orderSchema "Invoice").2.2.1 (by decide),
    (mustGetTable_lookup orderSchema "Invoice").2.2.2⟩

/-! ## Field and edge lookup, foreign keys -/

theorem find?_eq_some_iff_first {α : Type} (p : α → Bool) (l : List α) (x : α) :
    l.find? p = some x ↔ FirstWith (fun y => p y = true) l x := by
  induction l with
  | nil =>
    simp only [List.find?_nil]
    constructor
    · intro hc
      cases hc
    · rintro ⟨pre, post, hl, _, _⟩
      cases pre <;> cases hl
  | cons a rest ih =>
    by_cases ha : p a = true
    · rw [List.find?_cons_of_pos _ ha]
      constructor
      · intro hx
        cases hx
        exact ⟨[], rest, rfl, ha, by simp⟩
      · rintro ⟨pre, post, hl, _, hpre⟩
        cases pre with
        | nil =>
          cases hl
          rfl
        | cons b pre2 =>
          cases hl
          exact absurd ha (hpre a (List.mem_cons_self _ _))
    · rw [List.find?_cons_of_neg _ ha, ih]
      constructor
      · rintro ⟨pre, post, hl, hx, hpre⟩
        refine ⟨a :: pre, post, by rw [hl]; rfl, hx, ?_⟩
        intro y hy
        rcases List.mem_cons.mp hy with rfl | hy2
        · exact ha
        · exact hpre y hy2
      · rintro ⟨pre, post, hl, hx, hpre⟩
        cases pre with
        | nil =>
          cases hl
          exact absurd hx ha
        | cons b pre2 =>
          cases hl
          exact ⟨pre2, post, rfl, hx, fun y hy => hpre y (List.mem_cons_of_mem _ hy)⟩

/-- C14 (field lookup): `FindField(name)` panics, with the field-not-found message, if and
only if no element of `SimpleFields` has that `Name`; it returns `f` if and only if `f` is
the first element of `SimpleFields`, in sequence order, whose `Name` is `name`. -/
theorem findField_spec (table : Table) (name : String) :
    ((∃ e, table.FindField name = .error e) ↔ ∀ f ∈ table.SimpleFields, f.Name ≠ name) ∧
    ((∀ f ∈ table.SimpleFields, f.Name ≠ name) →
      table.FindField name
        = .error (.text ("field " ++ name ++ " not found in " ++ table.Name))) ∧
    ∀ f, table.FindField name = .ok f ↔
      FirstWith (fun g : MysqlField => g.Name = name) table.SimpleFields f := by
  have hfirst : ∀ f, table.SimpleFields.find? (fun field => field.Name == name) = some f ↔
      FirstWith (fun g : MysqlField => g.Name = name) table.SimpleFields f := by
    intro f
    rw [find?_eq_some_iff_first]
    simp [FirstWith]
  cases hfind : table.SimpleFields.find? (fun field => field.Name == name) with
  | none =>
    have hval : table.FindField name
        = .error (.text ("field " ++ name ++ " not found in " ++ table.Name)) := by
      simp only [Table.FindField, hfind]
    have hnone : ∀ f ∈ table.SimpleFields, f.Name ≠ name := by
      intro f hf
      have := List.find?_eq_none.mp hfind f hf
      simpa using this
    rw [hval]
    refine ⟨⟨fun _ => hnone, fun _ => ⟨_, rfl⟩⟩, fun _ => rfl, ?_⟩
    intro f
    constructor
    · intro hc
      cases hc
    · intro hc
      have := (hfirst f).mpr hc
      rw [hfind] at this
      cases this
  | some g =>
    have hval : table.FindField name = .ok g := by
      simp only [Table.FindField, hfind]
    have hg := (hfirst g).mp hfind
    have hsome : ¬ ∀ f ∈ table.SimpleFields, f.Name ≠ name := by
      intro hall
      obtain ⟨pre, post, hl, hname, _⟩ := hg
      exact hall g (by rw [hl]; simp) hname
    rw [hval]
    refine ⟨⟨?_, fun hc => absurd hc hsome⟩, fun hc => absurd hc hsome, ?_⟩
    · rintro ⟨e, he⟩
      cases he
    · intro f
      constructor
      · intro hc
        cases hc
        exact hg
      · intro hc
        have := (hfirst f).mpr hc
        rw [hfind] at this
        cases this
        rfl

/-- Witness of C14: in `users`, `id` is found at its first occurrence and `missing` is not
found. -/
theorem findField_spec_witness :
    usersTable.FindField "id" = .ok ⟨"id", "BIGINT", false, true⟩ ∧
    (∀ f ∈ usersTable.SimpleFields, f.Name ≠ "missing") ∧
    usersTable.FindField "missing" = .error (.text "field missing not found in users") :=
  ⟨((findField_spec usersTable "id").2.2 _).mpr
      ⟨[], [⟨"name", "VARCHAR(255)", true, false⟩, ⟨"id", "INT", false, false⟩], rfl, rfl,
        by simp⟩,
    by decide, (findField_spec usersTable "missing").2.1 (by decide)⟩

/-- C15 (edge lookup): `FindEdgeByName(name)` returns the first edge of `Edges` whose `Name`
is `name`, and `FindEdgeByPeerTable(peerTable)` the first edge whose `PeerTable` is
`peerTable`; each returns `nil` if and only if no edge matches. Both are total: they have
no panic among their results. -/
theorem findEdge_spec (table : MainTable) (name peerTable : String) :
    (∀ e, table.FindEdgeByName name = some e ↔
      FirstWith (fun g : Edge => g.Name = name) table.Edges e) ∧
    (table.FindEdgeByName name = none ↔ ∀ g ∈ table.Edges, g.Name ≠ name) ∧
    (∀ e, table.FindEdgeByPeerTable peerTable = some e ↔
      FirstWith (fun g : Edge => g.PeerTable = peerTable) table.Edges e) ∧
    (table.FindEdgeByPeerTable peerTable = none ↔
      ∀ g ∈ table.Edges, g.PeerTable ≠ peerTable) := by
  refine ⟨?_, ?_, ?_, ?_⟩
  · intro e
    unfold MainTable.FindEdgeByName
    rw [find?_eq_some_iff_first]
    simp [FirstWith]
  · unfold MainTable.FindEdgeByName
    rw [List.find?_eq_none]
    simp
  · intro e
    unfold MainTable.FindEdgeByPeerTable
    rw [find?_eq_some_iff_first]
    simp [FirstWith]
  · unfold MainTable.FindEdgeByPeerTable
    rw [List.find?_eq_none]
    simp

/-- Witness of C15: of the two edges of `Order` to `Customer` the first is returned, and no
edge is named `seller`. -/
theorem findEdge_spec_witness :
    edgesTable.FindEdgeByPeerTable "Customer" = some ⟨"buyer", "Customer", EdgeTypeMultiOne⟩ ∧
    edgesTable.FindEdgeByName "payer" = some ⟨"payer", "Customer", EdgeTypeMultiOne⟩ ∧
    (∀ g ∈ edgesTable.Edges, g.Name ≠ "seller") ∧
    edgesTable.FindEdgeByName "seller" = none :=
  ⟨((findEdge_spec edgesTable "payer" "Customer").2.2.1 _).mpr
      ⟨[], [⟨"item", "Item", EdgeTypeOneMulti⟩, ⟨"payer", "Customer", EdgeTypeMultiOne⟩], rfl,
        rfl, by simp⟩,
    ((findEdge_spec edgesTable "payer" "Customer").1 _).mpr
      ⟨[⟨"buyer", "Customer", EdgeTypeMultiOne⟩, ⟨"item", "Item", EdgeTypeOneMulti⟩], [], rfl,
        rfl, by decide⟩,
    by decide, (findEdge_spec edgesTable "seller" "Customer").2.1.mpr (by decide)⟩

/-- C17 (foreign key defaults): `MakeForeignKey(refTable)` has `RefTable = refTable`, empty
`SourceColumns` and `RefColumns`, `OnUpdate = Restrict`, and `OnDelete` equal to the zero
value of its type, the empty string, which is none of `Restrict`, `Cascade`, `SetNull`. -/
theorem makeForeignKey_defaults (refTable : String) :
    (MakeForeignKey refTable).RefTable = refTable ∧
    (MakeForeignKey refTable).SourceColumns = [] ∧
    (MakeForeignKey refTable).RefColumns = [] ∧
    (MakeForeignKey refTable).OnUpdate = ReferenceOptionRestrict ∧
    (MakeForeignKey refTable).OnDelete = "" ∧
    (MakeForeignKey refTable).OnDelete ≠ ReferenceOptionRestrict ∧
    (MakeForeignKey refTable).OnDelete ≠ ReferenceOptionCascade ∧
    (MakeForeignKey refTable).OnDelete ≠ ReferenceOptionSetNull := by
  have h1 : ("" : String) ≠ ReferenceOptionRestrict := by decide
  have h2 : ("" : String) ≠ ReferenceOptionCascade := by decide
  have h3 : ("" : String) ≠ ReferenceOptionSetNull := by decide
  exact ⟨rfl, rfl, rfl, rfl, rfl, h1, h2, h3⟩

/-! ## Heaps that `getSortedTables` cannot tell apart -/

theorem depends_eq_true_iff (h : Heap) (a b : Ptr) :
    Depends h a b = true ↔
      (deref h a).knownParent = some b ∨
      ∃ e ∈ (deref h a).Edges, e.PeerTable = (deref h b).Name ∧
        e.Typ ≠ EdgeTypeOneOne ∧ e.Typ ≠ EdgeTypeOneMulti := by
  unfold Depends
  by_cases hk : (deref h a).knownParent = some b
  · simp [hk]
  · simp only [hk, if_false, false_or, List.any_eq_true, Bool.and_eq_true, bne_iff_ne, ne_eq,
      beq_iff_eq]
    constructor
    · rintro ⟨e, he, ⟨h1, h2⟩, h3⟩
      exact ⟨e, he, h3, h1, h2⟩
    · rintro ⟨e, he, h3, h1, h2⟩
      exact ⟨e, he, ⟨h1, h2⟩, h3⟩

theorem depends_congr (h h2 : Heap) (a b : Ptr)
    (hk : (deref h2 a).knownParent = some b ↔ (deref h a).knownParent = some b)
    (hname : (deref h2 b).Name = (deref h b).Name)
    (he : ∀ e : Edge, e.PeerTable = (deref h b).Name → e.Typ ≠ EdgeTypeOneOne →
      e.Typ ≠ EdgeTypeOneMulti → (e ∈ (deref h2 a).Edges ↔ e ∈ (deref h a).Edges)) :
    Depends h2 a b = Depends h a b := by
  rw [Bool.eq_iff_iff, depends_eq_true_iff, depends_eq_true_iff, hk, hname]
  constructor
  · rintro (hp | ⟨e, hmem, h1, h2, h3⟩)
    · exact Or.inl hp
    · exact Or.inr ⟨e, (he e h1 h2 h3).mp hmem, h1, h2, h3⟩
  · rintro (hp | ⟨e, hmem, h1, h2, h3⟩)
    · exact Or.inl hp
    · exact Or.inr ⟨e, (he e h1 h2 h3).mpr hmem, h1, h2, h3⟩

/-- Two heaps that give the registered tables the same names, and the same `Depends` between
distinct registered tables, yield the same graph. -/
theorem buildGraph_congr (o : MapOrder) (h h2 : Heap) (s : Schema) (ho : o.Valid)
    (hname : ∀ e ∈ s.Tables, (deref h2 e.2).Name = (deref h e.2).Name)
    (hdep : ∀ d ∈ s.Tables, ∀ y ∈ s.Tables, d.2 ≠ y.2 →
      Depends h2 d.2 y.2 = Depends h d.2 y.2) :
    buildGraph o h2 s = buildGraph o h s := by
  unfold buildGraph
  have hnodes : (o.names s.Tables).map (fun e => (deref h2 e.2).Name)
      = (o.names s.Tables).map (fun e => (deref h e.2).Name) := by
    apply List.map_congr_left
    intro e he
    exact hname e ((ho.1 s.Tables).mem_iff.mp he)
  simp only [hnodes]
  unfold addEdges
  apply List.foldl_ext
  intro g d hd
  have hd2 := (ho.2.1 s.Tables).mem_iff.mp hd
  apply List.foldl_ext
  intro g2 y hy
  have hy2 := (ho.2.2 d s.Tables).mem_iff.mp hy
  by_cases hne : d.2 = y.2
  · simp [hne]
  · rw [hdep d hd2 y hy2 hne, hname d hd2, hname y hy2]

theorem getSortedTables_congr (o : MapOrder) (h h2 : Heap) (s : Schema) (ho : o.Valid)
    (hname : ∀ e ∈ s.Tables, (deref h2 e.2).Name = (deref h e.2).Name)
    (hdep : ∀ d ∈ s.Tables, ∀ y ∈ s.Tables, d.2 ≠ y.2 →
      Depends h2 d.2 y.2 = Depends h d.2 y.2) :
    Schema.getSortedTables o h2 s = Schema.getSortedTables o h s := by
  unfold Schema.getSortedTables
  rw [buildGraph_congr o h h2 s ho hname hdep]

theorem deref_withoutDangling (h : Heap) (s : Schema) (p : Ptr) :
    deref (withoutDangling h s) p = dropDangling h s (deref h p) := by
  unfold deref withoutDangling
  rw [List.getD_eq_getElem?_getD, List.getD_eq_getElem?_getD, List.getElem?_map]
  cases h[p]? with
  | none => rfl
  | some t => rfl

theorem dropSelfFrom_getElem? (h : Heap) (i k : Nat) :
    (dropSelfFrom i h)[k]? = (h[k]?).map (dropSelf (i + k)) := by
  induction h generalizing i k with
  | nil => simp [dropSelfFrom]
  | cons t rest ih =>
    cases k with
    | zero => simp [dropSelfFrom]
    | succ k =>
      simp only [dropSelfFrom, List.getElem?_cons_succ, ih]
      have : i + 1 + k = i + (k + 1) := by omega
      rw [this]

theorem deref_withoutSelf (h : Heap) (p : Ptr) :
    deref (withoutSelf h) p = dropSelf p (deref h p) := by
  unfold deref withoutSelf
  rw [List.getD_eq_getElem?_getD, List.getD_eq_getElem?_getD, dropSelfFrom_getElem?]
  simp only [Nat.zero_add]
  cases h[p]? with
  | none => rfl
  | some t => rfl

/-! ## Dangling references and self-references -/

theorem mem_registeredNames (h : Heap) (s : Schema) (e : String × Ptr) (he : e ∈ s.Tables) :
    (deref h e.2).Name ∈ registeredNames h s :=
  List.mem_map.mpr ⟨e, he, rfl⟩

theorem option_filter_eq_some {α : Type} (p : α → Bool) (o : Option α) (b : α)
    (hb : p b = true) : o.filter p = some b ↔ o = some b := by
  cases o with
  | none => simp [Option.filter]
  | some a =>
    by_cases ha : p a = true
    · simp [Option.filter, ha]
    · simp only [Option.filter, ha, Bool.false_eq_true, if_false]
      constructor
      · intro hc
        cases hc
      · intro hc
        cases hc
        exact absurd hb ha

/-- C18 (dangling references): for every schema and every visiting order of the `range`
loops, `getSortedTables` returns on the heap without dangling references (edges whose
`PeerTable` names no registered table, `knownParent` links to unregistered tables) exactly
what it returns on the heap itself: the same panic, or the same sequence and the same
schema. -/
theorem getSortedTables_ignores_dangling (h : Heap) (s : Schema) (o : MapOrder)
    (ho : o.Valid) :
    Schema.getSortedTables o (withoutDangling h s) s = Schema.getSortedTables o h s := by
  apply getSortedTables_congr o h _ s ho
  · intro e _
    rw [deref_withoutDangling]
    rfl
  · intro d _ y hy _
    apply depends_congr
    · rw [deref_withoutDangling]
      show (deref h d.2).knownParent.filter _ = some y.2 ↔ _
      apply option_filter_eq_some
      have : Registered s y.2 := (registered_iff s y.2).mpr ⟨y.1, hy⟩
      simpa using this
    · rw [deref_withoutDangling]
      rfl
    · intro e hpeer _ _
      rw [deref_withoutDangling]
      show e ∈ (deref h d.2).Edges.filter _ ↔ _
      rw [List.mem_filter]
      constructor
      · exact fun hc => hc.1
      · intro hc
        refine ⟨hc, ?_⟩
        rw [decide_eq_true_eq, hpeer]
        exact mem_registeredNames h s y hy

/-- Witness of C18: `Order` has an edge to the unregistered `Ghost` and an unregistered
`knownParent`; pruning removes both, and the sort returns `Customer, Order` either way. -/
theorem getSortedTables_ignores_dangling_witness :
    MapOrder.inOrder.Valid ∧
    (deref danglingHeap 0).Edges.length = 2 ∧
    (deref (withoutDangling danglingHeap orderSchema) 0).Edges
      = [⟨"customer", "Customer", EdgeTypeMultiOne⟩] ∧
    (deref (withoutDangling danglingHeap orderSchema) 0).knownParent = none ∧
    (Schema.getSortedTables MapOrder.inOrder danglingHeap orderSchema).map Prod.fst
      = .ok [some 1, some 0] ∧
    Schema.getSortedTables MapOrder.inOrder (withoutDangling danglingHeap orderSchema) orderSchema
      = Schema.getSortedTables MapOrder.inOrder danglingHeap orderSchema :=
  ⟨inOrder_valid, by decide, by decide, by decide, by decide,
    getSortedTables_ignores_dangling danglingHeap orderSchema MapOrder.inOrder inOrder_valid⟩

/-- A cycle among the graph edges is a cycle of `Depends` through distinct registered
tables. -/
theorem edge_acyclic_of_distinct_acyclic (o : MapOrder) (h : Heap) (s : Schema)
    (hinv : Inv h s) (ho : o.Valid)
    (hac : ∀ a, ¬ Relation.TransGen (fun x y => x ≠ y ∧ DependsOn h s x y) a a) (x : String) :
    ¬ Relation.TransGen (fun u v => (u, v) ∈ edgeList o h s.Tables) x x := by
  intro hx
  have hlift := Relation.TransGen.lift
    (p := Function.swap (fun x y => x ≠ y ∧ DependsOn h s x y))
    (fun k => (mapGet s.Tables k).getD 0)
    (by
      intro u v huv
      obtain ⟨d, hd, y, hy, hne, hdep, hu, hv⟩ := (mem_edgeList o h s.Tables ho u v).mp huv
      have hfu : (mapGet s.Tables u).getD 0 = y.2 := by
        rw [hu, inv_mapGet_name h s hinv y hy]; rfl
      have hfv : (mapGet s.Tables v).getD 0 = d.2 := by
        rw [hv, inv_mapGet_name h s hinv d hd]; rfl
      show (mapGet s.Tables v).getD 0 ≠ (mapGet s.Tables u).getD 0 ∧
        DependsOn h s ((mapGet s.Tables v).getD 0) ((mapGet s.Tables u).getD 0)
      rw [hfu, hfv]
      exact ⟨hne, (registered_iff s d.2).mpr ⟨d.1, hd⟩, (registered_iff s y.2).mpr ⟨y.1, hy⟩,
        hdep⟩)
    hx
  exact hac _ (Relation.transGen_swap.mp hlift)

/-- C19 (self-references are not cycles): on every reachable schema, `getSortedTables`
returns on the heap without self-references (edges of a dependency-creating kind to the
table's own `Name`, `knownParent` pointing to the table itself) exactly what it returns on
the heap itself; and when no cycle of `Depends` runs through distinct registered tables,
`getSortedTables` returns, with every table after the other tables it depends on. -/
theorem getSortedTables_ignores_self (h : Heap) (s : Schema) (o : MapOrder)
    (hr : Reachable h s) (ho : o.Valid) :
    Schema.getSortedTables o (withoutSelf h) s = Schema.getSortedTables o h s ∧
    ((∀ a, ¬ Relation.TransGen (fun x y => x ≠ y ∧ DependsOn h s x y) a a) →
      ∃ r s1, Schema.getSortedTables o h s = .ok (r, s1) ∧
        ∀ a b, Registered s a → Registered s b → a ≠ b → Depends h a b = true →
          Before r (some b) (some a)) := by
  have hinv := inv_of_reachable h s hr
  constructor
  · apply getSortedTables_congr o h _ s ho
    · intro e _
      rw [deref_withoutSelf]
      rfl
    · intro d hd y hy hne
      have hnames : (deref h y.2).Name ≠ (deref h d.2).Name := by
        intro hc
        exact hne (congrArg Prod.snd (inv_name_inj h s hinv y d hy hd hc)).symm
      apply depends_congr
      · rw [deref_withoutSelf]
        show (deref h d.2).knownParent.filter _ = some y.2 ↔ _
        apply option_filter_eq_some
        simpa using Ne.symm hne
      · rw [deref_withoutSelf]
        rfl
      · intro e hpeer _ _
        rw [deref_withoutSelf]
        show e ∈ (deref h d.2).Edges.filter _ ↔ _
        rw [List.mem_filter]
        constructor
        · exact fun hc => hc.1
        · intro hc
          refine ⟨hc, ?_⟩
          have : ¬ e.PeerTable = (deref h d.2).Name := by
            rw [hpeer]
            exact hnames
          simp [this]
  · intro hac
    cases hflag : s.graphOutdated with
    | false =>
      refine ⟨s.sortedList, s, by simp [Schema.getSortedTables, hflag], ?_⟩
      intro a b ha _ _ _
      have := inv_flag_of_registered h s hinv a ha
      rw [hflag] at this
      cases this
    | true =>
      obtain ⟨L, hperm, hord, hrun⟩ := getSortedTables_acyclic o h s hinv ho hflag
        (edge_acyclic_of_distinct_acyclic o h s hinv ho hac)
      refine ⟨_, _, hrun, ?_⟩
      intro a b ha hb hne hdep
      exact before_of_order o h s hinv ho L hperm hord a b ha hb hne hdep

theorem no_cycle_of_rank {α : Type} (r : α → α → Prop) (f : α → Nat)
    (hf : ∀ a b, r a b → f b < f a) (a : α) : ¬ Relation.TransGen r a a := by
  have hlt : ∀ x y, Relation.TransGen r x y → f y < f x := by
    intro x y hxy
    induction hxy with
    | single hd => exact hf _ _ hd
    | tail _ hd ih => exact lt_trans (hf _ _ hd) ih
  intro ha
  exact lt_irrefl _ (hlt a a ha)

theorem selfReachable : Reachable selfHeap orderSchema :=
  reachable_of_built _ _ (Built.populate plainHeap orderSchema 0 _ plainBuilt (by decide) rfl)

theorem selfDistinctAcyclic :
    ∀ a, ¬ Relation.TransGen (fun x y => x ≠ y ∧ DependsOn selfHeap orderSchema x y) a a := by
  apply no_cycle_of_rank _ (fun p => if p = 0 then 1 else 0)
  intro a b hd
  have hne := hd.1
  have ha : a ∈ [0, 1] := hd.2.1
  have hb : b ∈ [0, 1] := hd.2.2.1
  have hdep := hd.2.2.2
  simp only [List.mem_cons, List.mem_singleton, List.not_mem_nil, or_false] at ha hb
  rcases ha with rfl | rfl <;> rcases hb with rfl | rfl <;> revert hdep hne <;> decide

/-- Witness of C19: `Order` depends on itself, by an edge and by `knownParent`, and on
`Customer`; the sort returns `Customer, Order`, as it does without the self-references. -/
theorem getSortedTables_ignores_self_witness :
    Reachable selfHeap orderSchema ∧ MapOrder.inOrder.Valid ∧
    Depends selfHeap 0 0 = true ∧
    (deref (withoutSelf selfHeap) 0).Edges = [⟨"customer", "Customer", EdgeTypeMultiOne⟩] ∧
    (deref (withoutSelf selfHeap) 0).knownParent = none ∧
    (∀ a, ¬ Relation.TransGen (fun x y => x ≠ y ∧ DependsOn selfHeap orderSchema x y) a a) ∧
    (Schema.getSortedTables MapOrder.inOrder selfHeap orderSchema).map Prod.fst
      = .ok [some 1, some 0] ∧
    Schema.getSortedTables MapOrder.inOrder (withoutSelf selfHeap) orderSchema
      = Schema.getSortedTables MapOrder.inOrder selfHeap orderSchema ∧
    ∃ r s1, Schema.getSortedTables MapOrder.inOrder selfHeap orderSchema = .ok (r, s1) ∧
      ∀ a b, Registered orderSchema a → Registered orderSchema b → a ≠ b →
        Depends selfHeap a b = true → Before r (some b) (some a) :=
  ⟨selfReachable, inOrder_valid, by decide, by decide, by decide, selfDistinctAcyclic,
    by decide,
    (getSortedTables_ignores_self selfHeap orderSchema MapOrder.inOrder selfReachable
      inOrder_valid).1,
    (getSortedTables_ignores_self selfHeap orderSchema MapOrder.inOrder selfReachable
      inOrder_valid).2 selfDistinctAcyclic⟩

/-! ## Invariants of the registry -/

theorem flag_unset_of_no_tables (h : Heap) (s : Schema) (hr : Reachable h s)
    (hempty : s.Tables = []) : s.graphOutdated = false := by
  induction hr with
  | empty => rfl
  | getTable h s typ _ _ =>
    exfalso
    cases hget : mapGet s.Tables typ.Name with
    | some q =>
      rw [getTable_old h s typ q hget] at hempty
      have hq : mapGet s.Tables typ.Name = some q := hget
      rw [show s.Tables = [] from hempty] at hq
      cases hq
    | none =>
      rw [getTable_new h s typ hget] at hempty
      have hkey := (mapGet_eq_none_iff _ _).mp hget
      have hcons : mapSet s.Tables typ.Name h.length = [] := hempty
      rw [mapSet_of_not_mem _ _ _ hkey] at hcons
      simp at hcons
  | populate h s p t _ _ _ ih => exact ih hempty
  | getSortedTables o h s r s1 _ _ hrun ih =>
    obtain ⟨h1, h2, _, _⟩ := getSortedTables_frame o h s s1 r hrun
    rw [h2]
    exact ih (h1 ▸ hempty)

/-- What a successful call of `getSortedTables` on a registry that satisfies the invariant
caches: a topological order of the registered tables under the current `Depends`. -/
theorem getSortedTables_caches_order (o : MapOrder) (h : Heap) (s s1 : Schema)
    (r : List (Option Ptr)) (hinv : Inv h s) (ho : o.Valid)
    (hrun : Schema.getSortedTables o h s = .ok (r, s1)) :
    s1.sortedList = r ∧ s1.Tables = s.Tables ∧ CachedOrder h s1 s1.sortedList := by
  obtain ⟨f1, _, f3, f4⟩ := getSortedTables_frame o h s s1 r hrun
  refine ⟨f3, f1, ?_⟩
  cases hflag : s.graphOutdated with
  | false =>
    have hempty := hinv.2.2 hflag
    have hnone : ∀ p, ¬ Registered s p := by
      intro p hp
      rw [Registered, hempty.1] at hp
      simp at hp
    rw [f4 hflag]
    unfold CachedOrder
    rw [hempty.2]
    refine ⟨by rw [hempty.1]; rfl, by simp, ?_, ?_⟩
    · intro p hp
      exact absurd hp (hnone p)
    · intro a _ ha
      exact absurd ha (hnone a)
  | true =>
    obtain ⟨L, hk, hspec⟩ := getSortedTables_spec o h s hinv ho hflag
    rw [hrun] at hspec
    by_cases hall : ∀ v ∈ nodeList o h s, v ∈ L
    · rw [if_pos hall] at hspec
      have hr2 : r = L.map fun name => mapGet s.Tables name :=
        (Prod.mk.inj (Except.ok.inj hspec)).1
      have hperm : L.Perm (s.Tables.map Prod.fst) :=
        (kahn_perm _ _ L (nodeList_nodup o h s hinv ho) hk hall).trans
          (nodeList_perm o h s hinv ho)
      have hord := kahn_order _ _ L (edgeList_ends o h s hinv ho) hk hall
      obtain ⟨c1, _, c3, c4⟩ := complete_of_perm h s hinv L hperm
      have hregs : ∀ p, Registered s1 p ↔ Registered s p := by
        intro p
        rw [Registered, Registered, f1]
      unfold CachedOrder
      rw [f3, f1, hr2]
      refine ⟨c1, ?_, ?_, ?_⟩
      · intro x hx
        obtain ⟨p, hp1, hp2, _⟩ := c3 x hx
        exact ⟨p, hp1, (hregs p).mpr hp2⟩
      · intro p hp
        exact c4 p ((hregs p).mp hp)
      · intro a b ha hb hne hdep
        exact before_of_order o h s hinv ho L hperm hord a b ((hregs a).mp ha)
          ((hregs b).mp hb) hne hdep
    · rw [if_neg hall] at hspec
      cases hspec

/-- C16 (schema cache invariant): in every state reachable from the empty schema by
`getTable` calls, successful `getSortedTables` calls and changes to registered tables,
whenever the flag `graphOutdated` is not set, the cached ordering `sortedList` is a valid
topological order of the current `Tables` under `Depends`. The flag is unset exactly in
the states without tables. Whatever the flag, the ordering that a successful
`getSortedTables` call caches is, in the state the call leaves, a topological order of the
registered tables: as long as `Tables`, every registered table exactly once and nothing
else, every table after each other table it depends on; it is a valid order in full when
no table depends on itself. -/
theorem cache_invariant (h : Heap) (s : Schema) (hr : Reachable h s) :
    (s.graphOutdated = false → ValidOrder h s s.sortedList) ∧
    (s.graphOutdated = false ↔ s.Tables = []) ∧
    ∀ o r s1, o.Valid → Schema.getSortedTables o h s = .ok (r, s1) →
      Reachable h s1 ∧ s1.sortedList = r ∧ s1.Tables = s.Tables ∧
      CachedOrder h s1 s1.sortedList ∧
      ((∀ a, Registered s1 a → Depends h a a = false) → ValidOrder h s1 s1.sortedList) := by
  have hinv := inv_of_reachable h s hr
  refine ⟨?_, ⟨fun hflag => (hinv.2.2 hflag).1, flag_unset_of_no_tables h s hr⟩, ?_⟩
  · intro hflag
    have hempty := hinv.2.2 hflag
    have hnone : ∀ p, ¬ Registered s p := by
      intro p hp
      rw [Registered, hempty.1] at hp
      simp at hp
    unfold ValidOrder
    rw [hempty.2]
    refine ⟨by rw [hempty.1]; rfl, by simp, ?_, ?_⟩
    · intro p hp
      exact absurd hp (hnone p)
    · intro a _ ha
      exact absurd ha (hnone a)
  · intro o r s1 ho hrun
    obtain ⟨c1, c2, c3⟩ := getSortedTables_caches_order o h s s1 r hinv ho hrun
    refine ⟨Reachable.getSortedTables o h s r s1 hr ho hrun, c1, c2, c3, ?_⟩
    intro hself
    obtain ⟨d1, d2, d3, d4⟩ := c3
    refine ⟨d1, d2, d3, ?_⟩
    intro a b ha hb hdep
    by_cases hab : a = b
    · subst hab
      rw [hself a ha] at hdep
      cases hdep
    · exact d4 a b ha hb hab hdep

theorem orderNoSelf : ∀ a, Registered orderSorted a → Depends orderHeap a a = false := by
  intro a ha
  have ha2 : a ∈ [0, 1] := ha
  simp only [List.mem_cons, List.mem_singleton, List.not_mem_nil, or_false] at ha2
  rcases ha2 with rfl | rfl <;> decide

/-- Witness of C16: on `Order` and `Customer`, where `Order` depends on `Customer`, the call
caches `Customer, Order`, a valid topological order of the two registered tables; the
empty schema is the state with the flag unset. -/
theorem cache_invariant_witness :
    Reachable orderHeap orderSchema ∧ MapOrder.inOrder.Valid ∧
    Schema.getSortedTables MapOrder.inOrder orderHeap orderSchema
      = .ok ([some 1, some 0], orderSorted) ∧
    Depends orderHeap 0 1 = true ∧
    orderSorted.sortedList = [some 1, some 0] ∧
    CachedOrder orderHeap orderSorted orderSorted.sortedList ∧
    ValidOrder orderHeap orderSorted orderSorted.sortedList ∧
    (emptySchema.graphOutdated = false → ValidOrder [] emptySchema emptySchema.sortedList) :=
  ⟨reachable_of_built _ _ orderBuilt, inOrder_valid, by decide, by decide, rfl,
    ((cache_invariant orderHeap orderSchema (reachable_of_built _ _ orderBuilt)).2.2
      MapOrder.inOrder [some 1, some 0] orderSorted inOrder_valid (by decide)).2.2.2.1,
    ((cache_invariant orderHeap orderSchema (reachable_of_built _ _ orderBuilt)).2.2
      MapOrder.inOrder [some 1, some 0] orderSorted inOrder_valid (by decide)).2.2.2.2
      orderNoSelf,
    (cache_invariant [] emptySchema Reachable.empty).1⟩

theorem registered_getTable (h : Heap) (s : Schema) (typ : ReflectType) (p : Ptr)
    (hp : Registered s p) : Registered (Schema.getTable h s typ).2.2 p := by
  cases hget : mapGet s.Tables typ.Name with
  | some q =>
    rw [getTable_old h s typ q hget]
    exact hp
  | none =>
    rw [getTable_new h s typ hget]
    have hkey := (mapGet_eq_none_iff _ _).mp hget
    show p ∈ (mapSet s.Tables typ.Name h.length).map Prod.snd
    rw [mapSet_of_not_mem _ _ _ hkey, List.map_append]
    exact List.mem_append_left _ hp

theorem getSortedTables_result_registered (o : MapOrder) (h : Heap) (s s1 : Schema)
    (r : List (Option Ptr)) (hinv : Inv h s) (ho : o.Valid)
    (hflag : s.graphOutdated = true) (hrun : Schema.getSortedTables o h s = .ok (r, s1)) :
    ∀ x ∈ r, ∃ p, x = some p ∧ Registered s p := by
  obtain ⟨L, hk, hspec⟩ := getSortedTables_spec o h s hinv ho hflag
  rw [hrun] at hspec
  by_cases hall : ∀ v ∈ nodeList o h s, v ∈ L
  · rw [if_pos hall] at hspec
    have hr2 : r = L.map fun name => mapGet s.Tables name :=
      (Prod.mk.inj (Except.ok.inj hspec)).1
    have hperm : L.Perm (s.Tables.map Prod.fst) :=
      (kahn_perm _ _ L (nodeList_nodup o h s hinv ho) hk hall).trans
        (nodeList_perm o h s hinv ho)
    intro x hx
    rw [hr2] at hx
    obtain ⟨p, hp1, hp2, _⟩ := (complete_of_perm h s hinv L hperm).2.2.1 x hx
    exact ⟨p, hp1, hp2⟩
  · rw [if_neg hall] at hspec
    cases hspec

theorem sortedInv_of_reachable (h : Heap) (s : Schema) (hr : Reachable h s) : SortedInv s := by
  induction hr with
  | empty =>
    intro x hx
    simp [emptySchema] at hx
  | getTable h s typ _ ih =>
    intro x hx
    have hsame : (Schema.getTable h s typ).2.2.sortedList = s.sortedList := by
      cases hget : mapGet s.Tables typ.Name with
      | some q => rw [getTable_old h s typ q hget]
      | none => rw [getTable_new h s typ hget]
    rw [hsame] at hx
    obtain ⟨p, hp1, hp2⟩ := ih x hx
    exact ⟨p, hp1, registered_getTable h s typ p hp2⟩
  | populate h s p t _ _ _ ih => exact ih
  | getSortedTables o h s r s1 hr0 ho hrun ih =>
    obtain ⟨h1, _, h3, h4⟩ := getSortedTables_frame o h s s1 r hrun
    cases hflag : s.graphOutdated with
    | false =>
      rw [h4 hflag]
      exact ih
    | true =>
      intro x hx
      rw [h3] at hx
      obtain ⟨p, hp1, hp2⟩ := getSortedTables_result_registered o h s s1 r
        (inv_of_reachable h s hr0) ho hflag hrun x hx
      refine ⟨p, hp1, ?_⟩
      rw [Registered, h1]
      exact hp2

/-- C20 (registry key invariant): in every schema reachable from the empty schema, each key
`k` of `Tables` maps to an allocated `MainTable` whose `Name` is `k`; hence the lookup
`Tables[name]` of every name that `Toposort` returns with `ok` finds a registered table,
every element of a sequence returned by `getSortedTables` is a registered, non-nil table,
and the cached ordering `sortedList` never holds a `nil` entry. -/
theorem registry_key_invariant (h : Heap) (s : Schema) (hr : Reachable h s) :
    (∀ k p, mapGet s.Tables k = some p → p < h.length ∧ (deref h p).Name = k) ∧
    (∀ o names, o.Valid → (buildGraph o h s).Toposort = .ok (names, true) →
      ∀ name ∈ names, ∃ p, mapGet s.Tables name = some p ∧ Registered s p) ∧
    (∀ o r s1, o.Valid → Schema.getSortedTables o h s = .ok (r, s1) →
      ∀ x ∈ r, ∃ p, x = some p ∧ Registered s p) ∧
    ∀ x ∈ s.sortedList, ∃ p, x = some p ∧ Registered s p := by
  have hinv := inv_of_reachable h s hr
  have hsorted := sortedInv_of_reachable h s hr
  refine ⟨?_, ?_, ?_, hsorted⟩
  · intro k p hget
    exact hinv.2.1 (k, p) (mem_of_mapGet _ _ _ hget)
  · intro o names ho hrun name hname
    obtain ⟨L, hrun2, hk⟩ := toposort_spec (nodeList o h s) (edgeList o h s.Tables)
      (buildGraph o h s) (nodeList_nodup o h s hinv ho) (edgeList_nodup o h s hinv ho)
      (edgeList_ends o h s hinv ho) (buildGraph_rep o h s hinv ho)
    rw [hrun] at hrun2
    have hL : names = L := (Prod.mk.inj (Except.ok.inj hrun2)).1
    have hnode : name ∈ nodeList o h s := hk.sub name (by rw [← hL]; simpa using hname)
    have hkey := (nodeList_perm o h s hinv ho).mem_iff.mp hnode
    obtain ⟨e, he, rfl⟩ := List.mem_map.mp hkey
    exact ⟨e.2, inv_mapGet h s hinv e he, (registered_iff s e.2).mpr ⟨e.1, he⟩⟩
  · intro o r s1 ho hrun
    cases hflag : s.graphOutdated with
    | false =>
      obtain ⟨_, _, h3, h4⟩ := getSortedTables_frame o h s s1 r hrun
      rw [← h3, h4 hflag]
      exact hsorted
    | true => exact getSortedTables_result_registered o h s s1 r hinv ho hflag hrun

/-- Witness of C20: `Order` and `Customer` after a call of `getSortedTables`. -/
theorem registry_key_invariant_witness :
    Reachable orderHeap orderSorted ∧
    (∀ k p, mapGet orderSorted.Tables k = some p →
      p < orderHeap.length ∧ (deref orderHeap p).Name = k) ∧
    ∀ x ∈ orderSorted.sortedList, ∃ p, x = some p ∧ Registered orderSorted p :=
  ⟨Reachable.getSortedTables MapOrder.inOrder orderHeap orderSchema [some 1, some 0] orderSorted
      (reachable_of_built _ _ orderBuilt) inOrder_valid (by decide),
    (registry_key_invariant orderHeap orderSorted
      (Reachable.getSortedTables MapOrder.inOrder orderHeap orderSchema [some 1, some 0]
        orderSorted (reachable_of_built _ _ orderBuilt) inOrder_valid (by decide))).1,
    (registry_key_invariant orderHeap orderSorted
      (Reachable.getSortedTables MapOrder.inOrder orderHeap orderSchema [some 1, some 0]
        orderSorted (reachable_of_built _ _ orderBuilt) inOrder_valid (by decide))).2.2.2⟩

end MyModel
